import Mathlib

/-!
# Verification of the `fav` bookmark-hierarchy model

Shallow embedding of the bookmark hierarchy model, its ordering, its
store mutations and its persistence/reconciliation engine, translated from
the repository sources:

* `src/model.ts` (first variant, the one with object-reference parents): the
  `Bookmarkable` contract, `Group` (with `addChild`/`removeChild`,
  `favoritesDeep`, `toJSON`), `Favorite`, `Folder`, and
  `bookmarkableComparator`.
* the `FavoriteStore` with `restore`/`refresh`/`delete`/`favorites` and the
  restoration-point functions (the store variant whose `restore` wires
  object-reference parents and classifies `Folder` by presence of `filter`).
* `src/manager.ts`: `FavoriteManager.moveFavorite` and `reloadFavorites`.

Two complementary embeddings are used:

1. A pure tree type `Bk` for the entity model's recursive, side-effect-free
   functions (`toJSON` serialization, `favoritesDeep`, the comparator).
2. An arena (heap of objects addressed by `Id`, standing for JavaScript
   object references) for the mutating operations (`addChild`,
   `removeChild`, the store's `delete`, `add`, the manager's `moveFavorite`)
   and for `restore`, whose observable contract is precisely the wiring of
   parent back-references between objects.

`label.localeCompare` (an external JavaScript primitive guaranteeing a
locale-consistent total order on strings returning a negative/zero/positive
number; V8 returns -1/0/1) is modelled by the sign comparator of the total
order on Lean strings.
-/

/-- The platform path separator (`sep` from node's `path`), as on linux. -/
def sep : String := "/"

/-- Pure tree view of `Bookmarkable` objects.  The variant is structurally
determined exactly as in the source: a Group is the variant carrying a
`children` field, a Folder the one carrying a `filter` field
(`Group.isGroup(item) := (item as Group).children !== undefined`). -/
inductive Bk where
  /-- `Favorite`: label, resourcePath, transient description. -/
  | fav (label resourcePath : String) (descr : Option String) : Bk
  /-- `Folder`: label, resourcePath, glob filter, transient description. -/
  | folder (label resourcePath filter : String) (descr : Option String) : Bk
  /-- `Group`: label, transient description, children. -/
  | group (label : String) (descr : Option String) (children : List Bk) : Bk

/-- `Group.isGroup`: structural identification of a Group by the presence of
its `children` field. -/
def Bk.isGroup : Bk → Bool
  | .group _ _ _ => true
  | _ => false

/-- The `label` attribute shared by all `Bookmarkable` variants. -/
def Bk.label : Bk → String
  | .fav l _ _ => l
  | .folder l _ _ _ => l
  | .group l _ _ => l

/-- The transient `description` attribute. -/
def Bk.descr : Bk → Option String
  | .fav _ _ d => d
  | .folder _ _ _ d => d
  | .group _ d _ => d

/-- Model of JavaScript `String.prototype.localeCompare`: the sign
comparator of the (locale-consistent) total order on strings. -/
def localeCompare (a b : String) : Int :=
  if a < b then -1 else if b < a then 1 else 0

/-- `bookmarkableComparator` from `src/model.ts`:
if exactly one of the two entities is a Group, the Group sorts first;
otherwise compare labels with `localeCompare`. -/
def bookmarkableComparator (a b : Bk) : Int :=
  if a.isGroup ≠ b.isGroup then
    if a.isGroup then -1 else 1
  else
    localeCompare a.label b.label

theorem localeCompare_antisymm (a b : String) :
    localeCompare a b = -localeCompare b a := by
  unfold localeCompare
  rcases lt_trichotomy a b with h | h | h
  · simp [h, not_lt.mpr h.le, asymm h]
  · simp [h, lt_irrefl]
  · simp [h, not_lt.mpr h.le, asymm h]

/-- C4: the global comparator is antisymmetric (`compare(a,b) = -compare(b,a)`),
puts a Group first whenever exactly one of the two entities is a Group
(negative result when `a` is the Group, regardless of labels), and on two
entities of the same kind returns exactly the locale comparison of their
labels, so that its result matches the lexicographic order of the labels
(`< 0` iff `a.label < b.label`, `= 0` iff the labels are equal). -/
theorem comparator_total_order (a b : Bk) :
    bookmarkableComparator a b = -bookmarkableComparator b a
    ∧ (a.isGroup = true ∧ b.isGroup = false → bookmarkableComparator a b < 0)
    ∧ (a.isGroup = false ∧ b.isGroup = true → 0 < bookmarkableComparator a b)
    ∧ (a.isGroup = b.isGroup →
        bookmarkableComparator a b = localeCompare a.label b.label
        ∧ (bookmarkableComparator a b < 0 ↔ a.label < b.label)
        ∧ (bookmarkableComparator a b = 0 ↔ a.label = b.label)) := by
  refine ⟨?_, ?_, ?_, ?_⟩
  · unfold bookmarkableComparator
    cases ha : a.isGroup <;> cases hb : b.isGroup
    · simpa using localeCompare_antisymm a.label b.label
    · simp
    · simp
    · simpa using localeCompare_antisymm a.label b.label
  · rintro ⟨ha, hb⟩
    simp [bookmarkableComparator, ha, hb]
  · rintro ⟨ha, hb⟩
    simp [bookmarkableComparator, ha, hb]
  · intro h
    refine ⟨by simp [bookmarkableComparator, h], ?_, ?_⟩
    · unfold bookmarkableComparator localeCompare
      rcases lt_trichotomy a.label b.label with hl | hl | hl
      · simp [h, hl]
      · simp [h, hl, lt_irrefl]
      · simp [h, hl, not_lt.mpr hl.le, asymm hl, le_of_lt hl]
    · unfold bookmarkableComparator localeCompare
      rcases lt_trichotomy a.label b.label with hl | hl | hl
      · simp [h, hl, ne_of_lt hl]
      · simp [h, hl, lt_irrefl]
      · simp [h, hl, not_lt.mpr hl.le, (ne_of_lt hl).symm]

/-! ## Arena embedding of the mutable object graph

JavaScript object references are modelled by natural-number ids into a total
heap.  Every id denotes an object (as every reference denotes one); the
store's tree is whatever is reachable from its root collection
`_favorites`. -/

/-- An object reference. -/
abbrev Ref := Nat

/-- The mutable state of one `Bookmarkable` object.  As in the source, the
variant is determined structurally: a Group is an object whose `children`
field is present, a Folder one whose `filter` field is present. -/
structure Obj where
  label : String
  resourcePath : String
  filter : Option String
  children : Option (List Ref)
  parent : Option Ref
  descr : Option String
deriving DecidableEq

/-- `Group.isGroup` on heap objects: presence of the `children` field. -/
def Obj.isGroup (o : Obj) : Bool := o.children.isSome

/-- Pointwise heap update at one reference. -/
def hup (h : Ref → Obj) (i : Ref) (f : Obj → Obj) : Ref → Obj :=
  fun j => if j = i then f (h i) else h j

/-- The store state: the object heap and the root collection
(`FavoriteStore._favorites`). -/
structure Store where
  heap : Ref → Obj
  favorites : List Ref

/-- The `children` array of the object behind `g` (empty for non-Groups). -/
def childrenOf (s : Store) (g : Ref) : List Ref :=
  ((s.heap g).children).getD []

/-- `Group.addChild(item)`: `this.children.push(item); item.parent = this;`. -/
def addChild (s : Store) (g e : Ref) : Store :=
  match (s.heap g).children with
  | none => s
  | some cs =>
    let h1 := hup s.heap g (fun o => { o with children := some (cs ++ [e]) })
    let h2 := hup h1 e (fun o => { o with parent := some g })
    { s with heap := h2 }

/-- `Group.removeChild(item)`: look up `item` by reference identity
(`indexOf`), return if absent, else clear its back-reference and splice it
out. -/
def removeChild (s : Store) (g e : Ref) : Store :=
  match (s.heap g).children with
  | none => s
  | some cs =>
    if e ∈ cs then
      let h1 := hup s.heap e (fun o => { o with parent := none })
      let h2 := hup h1 g (fun o => { o with children := some (cs.erase e) })
      { s with heap := h2 }
    else s

/-- `FavoriteStore.add(...bk)`: push onto the root collection. -/
def storeAdd (s : Store) (bks : List Ref) : Store :=
  { s with favorites := s.favorites ++ bks }

/-- JavaScript `arr.splice(arr.indexOf(x), 1)`: removes the first occurrence
of `x` when present; when absent, `indexOf` gives `-1` and `splice(-1, 1)`
removes the LAST element of the array (nothing on an empty array). -/
def spliceDelete (l : List Ref) (x : Ref) : List Ref :=
  if x ∈ l then l.erase x else l.dropLast

/-- `FavoriteStore.delete` on one entity: if its `parent` field points to a
Group, delegate to `removeChild`; otherwise splice it out of the root
collection by `indexOf` (with the `-1` behaviour of `spliceDelete`). -/
def storeDelete1 (s : Store) (x : Ref) : Store :=
  match (s.heap x).parent with
  | some p =>
    if (s.heap p).isGroup then removeChild s p x
    else { s with favorites := spliceDelete s.favorites x }
  | none => { s with favorites := spliceDelete s.favorites x }

/-- `FavoriteManager.moveFavorite`: detach (via the parent Group when there
is one, else via the store's `delete`), then reattach under the chosen
group, or at root level (`store.add`) when the virtual root group
(`tgt = none`) was chosen. -/
def moveFavorite (s : Store) (e : Ref) (tgt : Option Ref) : Store :=
  let s1 := match (s.heap e).parent with
            | some p => removeChild s p e
            | none => storeDelete1 s e
  match tgt with
  | none => storeAdd s1 [e]
  | some g => addChild s1 g e

/-- Membership in the store's tree: reachable from the root collection
through `children` arrays. -/
inductive InTree (s : Store) : Ref → Prop where
  | root {i : Ref} : i ∈ s.favorites → InTree s i
  | child {g i : Ref} : InTree s g → i ∈ childrenOf s g → InTree s i

/-- `Desc s e x`: `x` is `e` itself or a descendant of `e` through
`children` arrays. -/
inductive Desc (s : Store) (e : Ref) : Ref → Prop where
  | refl : Desc s e e
  | child {g i : Ref} : Desc s e g → i ∈ childrenOf s g → Desc s e i

theorem inTree_subset (s : Store) (L : List Ref)
    (hroot : ∀ i ∈ s.favorites, i ∈ L)
    (hcl : ∀ g ∈ L, ∀ i ∈ childrenOf s g, i ∈ L) :
    ∀ x, InTree s x → x ∈ L := by
  intro x hx
  induction hx with
  | root h => exact hroot _ h
  | child _ hi ih => exact hcl _ ih _ hi

theorem desc_subset (s : Store) (e : Ref) (L : List Ref) (he : e ∈ L)
    (hcl : ∀ g ∈ L, ∀ i ∈ childrenOf s g, i ∈ L) :
    ∀ x, Desc s e x → x ∈ L := by
  intro x hx
  induction hx with
  | refl => exact he
  | child _ hi ih => exact hcl _ ih _ hi

/-- Parent consistency: children of every Group in the tree point back to
it, and root-level entities have no parent. -/
def ParentOK (s : Store) : Prop :=
  (∀ e ∈ s.favorites, (s.heap e).parent = none)
  ∧ (∀ g, InTree s g → ∀ e ∈ childrenOf s g, (s.heap e).parent = some g)

/-- The forest invariant maintained by the store: parent consistency plus
no duplicate attachment within any container of the tree. -/
structure StoreInv (s : Store) : Prop where
  root_parent : ∀ e ∈ s.favorites, (s.heap e).parent = none
  child_parent : ∀ g, InTree s g → ∀ e ∈ childrenOf s g, (s.heap e).parent = some g
  root_nodup : s.favorites.Nodup
  child_nodup : ∀ g, InTree s g → (childrenOf s g).Nodup

/-- Helper: `removeChild` on a non-member is a pure no-op on the state. -/
theorem removeChild_not_mem (s : Store) (g e : Ref)
    (h : e ∉ childrenOf s g) : removeChild s g e = s := by
  unfold removeChild
  cases hc : (s.heap g).children with
  | none => rfl
  | some cs =>
    have : e ∉ cs := by
      simpa [childrenOf, hc] using h
    simp [this]

/-- C10: removal matches by object identity: for any item that is not (by
reference) an element of `g.children`, `g.removeChild(item)` leaves the
entire state unchanged — `g.children` untouched and `item.parent`
unmodified — even if some child carries the same label or path. -/
theorem removeChild_nonmember_noop (s : Store) (g e : Ref)
    (h : e ∉ childrenOf s g) :
    removeChild s g e = s ∧ childrenOf (removeChild s g e) g = childrenOf s g
    ∧ ((removeChild s g e).heap e).parent = (s.heap e).parent := by
  have := removeChild_not_mem s g e h
  exact ⟨this, by rw [this], by rw [this]⟩

theorem hup_eq (h : Ref → Obj) (i : Ref) (f : Obj → Obj) : hup h i f i = f (h i) := by
  simp [hup]

theorem hup_ne (h : Ref → Obj) (i j : Ref) (f : Obj → Obj) (hij : j ≠ i) :
    hup h i f j = h j := by
  simp [hup, hij]

/-- A blank object: the fields of a freshly constructed `Favorite`. -/
def blankObj : Obj := ⟨"", "", none, none, none, none⟩

/-- A Favorite object on the heap. -/
def leafObj (l rp : String) (par : Option Ref) : Obj := ⟨l, rp, none, none, par, none⟩

/-- A Group object on the heap. -/
def groupObj (l : String) (cs : List Ref) (par : Option Ref) : Obj :=
  ⟨l, "", none, some cs, par, none⟩

/-- Store with the single root favorite `1`; the entity `2` exists but is
attached nowhere. -/
def sDel : Store :=
  ⟨fun i => if i = 1 then leafObj "A" "/a.txt" none else blankObj, [1]⟩

/-- C3 counterexample: deleting an entity that is not present in the tree is
NOT a no-op.  With root collection `[1]`, deleting the absent parentless
entity `2` makes `indexOf` return `-1`, and `splice(-1, 1)` removes the
unrelated last root entity `1`: the root collection becomes empty. -/
theorem delete_absent_not_noop :
    (¬ InTree sDel 2)
    ∧ (sDel.heap 2).parent = none
    ∧ sDel.favorites = [1]
    ∧ (storeDelete1 sDel 2).favorites = [] := by
  refine ⟨?_, rfl, rfl, rfl⟩
  intro h
  have h2 := inTree_subset sDel [1] (by decide) (by decide) 2 h
  simp at h2

/-- C3 (amended): `delete(e)` fully detaches present entities — a child is
removed from its parent's children with its back-reference cleared, a
root-level entity is removed from the root collection — and deleting an
absent entity whose `parent` points into a Group is a no-op (the defensive
check lives in `removeChild`); but deleting an absent entity with no parent
splices at index `-1`, dropping the LAST element of the root collection
(a no-op only when the root collection is empty). -/
theorem delete_detach_amended (s : Store) (p e : Ref)
    (hnf : s.favorites.Nodup)
    (hnc : (childrenOf s p).Nodup) :
    ((s.heap e).parent = some p → (s.heap p).isGroup = true → e ∈ childrenOf s p →
      e ∉ childrenOf (storeDelete1 s e) p
      ∧ ((storeDelete1 s e).heap e).parent = none
      ∧ (storeDelete1 s e).favorites = s.favorites)
    ∧ ((s.heap e).parent = none → e ∈ s.favorites →
      e ∉ (storeDelete1 s e).favorites ∧ (storeDelete1 s e).heap = s.heap)
    ∧ ((s.heap e).parent = some p → (s.heap p).isGroup = true →
        e ∉ childrenOf s p → storeDelete1 s e = s)
    ∧ ((s.heap e).parent = none → e ∉ s.favorites →
      (storeDelete1 s e).favorites = s.favorites.dropLast
      ∧ (storeDelete1 s e).heap = s.heap) := by
  refine ⟨?_, ?_, ?_, ?_⟩
  · intro hpar hg hmem
    obtain ⟨cs, hcs⟩ := Option.isSome_iff_exists.mp hg
    have hmem' : e ∈ cs := by simpa [childrenOf, hcs] using hmem
    have hnc' : cs.Nodup := by simpa [childrenOf, hcs] using hnc
    have hred : storeDelete1 s e = { s with heap := hup (hup s.heap e (fun o => { o with parent := none })) p (fun o => { o with children := some (cs.erase e) }) } := by
      simp [storeDelete1, hpar, hg, removeChild, hcs, hmem']
    rw [hred]
    refine ⟨?_, ?_, rfl⟩
    · simp only [childrenOf, hup_eq]
      intro hin
      rcases (List.Nodup.mem_erase_iff hnc').mp (by simpa using hin) with ⟨hne, _⟩
      exact hne rfl
    · by_cases hep : e = p
      · subst hep
        simp [hup]
      · simp [hup, hep]
  · intro hpar hmem
    have hred : storeDelete1 s e = { s with favorites := s.favorites.erase e } := by
      simp [storeDelete1, hpar, spliceDelete, hmem]
    rw [hred]
    exact ⟨fun hin => ((List.Nodup.mem_erase_iff hnf).mp hin).1 rfl, rfl⟩
  · intro hpar hg hmem
    simp [storeDelete1, hpar, hg, removeChild_not_mem s p e hmem]
  · intro hpar hmem
    have hred : storeDelete1 s e = { s with favorites := s.favorites.dropLast } := by
      simp [storeDelete1, hpar, spliceDelete, hmem]
    rw [hred]
    exact ⟨rfl, rfl⟩

/-- Witness store for the amended delete theorem: Group `0` at root with
child `1`. -/
def sDelW : Store :=
  ⟨fun i => if i = 0 then groupObj "G" [1] none
    else if i = 1 then leafObj "A" "/a.txt" (some 0) else blankObj, [0]⟩

theorem delete_detach_amended_witness :
    ((sDelW.heap 1).parent = some 0 → (sDelW.heap 0).isGroup = true →
        1 ∈ childrenOf sDelW 0 →
      1 ∉ childrenOf (storeDelete1 sDelW 1) 0
      ∧ ((storeDelete1 sDelW 1).heap 1).parent = none
      ∧ (storeDelete1 sDelW 1).favorites = sDelW.favorites)
    ∧ ((sDelW.heap 1).parent = none → 1 ∈ sDelW.favorites →
      1 ∉ (storeDelete1 sDelW 1).favorites ∧ (storeDelete1 sDelW 1).heap = sDelW.heap)
    ∧ ((sDelW.heap 1).parent = some 0 → (sDelW.heap 0).isGroup = true →
        1 ∉ childrenOf sDelW 0 → storeDelete1 sDelW 1 = sDelW)
    ∧ ((sDelW.heap 1).parent = none → 1 ∉ sDelW.favorites →
      (storeDelete1 sDelW 1).favorites = sDelW.favorites.dropLast
      ∧ (storeDelete1 sDelW 1).heap = sDelW.heap) :=
  delete_detach_amended sDelW 0 1 (by decide) (by decide)

theorem removeChild_nonmember_noop_witness :
    removeChild sDelW 0 2 = sDelW
    ∧ childrenOf (removeChild sDelW 0 2) 0 = childrenOf sDelW 0
    ∧ ((removeChild sDelW 0 2).heap 2).parent = (sDelW.heap 2).parent :=
  removeChild_nonmember_noop sDelW 0 2 (by decide)

/-! ## Persistence: parsed records, the Reconciler's `restore`, and the
filesystem-facing operations -/

/-- A record of the persisted document as parsed from JSON: every field the
format knows about is optional (hand-edited and legacy files may omit any of
them), and the variant is decided structurally, as in the source.  Since
`Object.assign(new ..., obj)` copies EVERY own key of the parsed record, a
record also carries the keys the format does not expect but the object
model stores: a persisted/hand-edited `parent` key (`some r` modelling a
truthy retained value, `none` a missing or falsy one) and a persisted
`description`. -/
inductive JRec where
  | mk (label resourcePath filter : Option String) (children : Option (List JRec))
       (parent : Option Ref) (descr : Option String) : JRec

def JRec.label : JRec → Option String
  | .mk l _ _ _ _ _ => l

def JRec.resourcePath : JRec → Option String
  | .mk _ r _ _ _ _ => r

def JRec.filter : JRec → Option String
  | .mk _ _ f _ _ _ => f

def JRec.children : JRec → Option (List JRec)
  | .mk _ _ _ c _ _ => c

def JRec.parent : JRec → Option Ref
  | .mk _ _ _ _ p _ => p

def JRec.descr : JRec → Option String
  | .mk _ _ _ _ _ d => d

/-- The parent field of a restored object: `Object.assign` first copies the
record's own `parent` value, then `if (parent) { bk.parent = parent; }`
overrides it only when a (truthy) wiring argument was passed — so with no
argument the copied value survives. -/
def wireParent (arg copied : Option Ref) : Option Ref :=
  match arg with
  | some p => some p
  | none => copied

mutual

/-- `FavoriteStore.restore(obj, parent?)`: classify the record structurally
(`children` present ⇒ Group, else `filter` present ⇒ Folder, else
Favorite), `Object.assign` it onto a freshly constructed object (missing
fields keep the constructor defaults, i.e. the empty string; the record's
own `parent` and `description` keys are copied along), rebuild a Group's
children recursively with the just-built Group as parent, and overwrite the
parent back-reference only when a wiring argument is given.  The fresh
object is allocated at reference `n`; returns the next fresh reference and
the new heap. -/
def restoreRec (r : JRec) (parent : Option Ref) (n : Ref) (h : Ref → Obj) :
    Ref × (Ref → Obj) :=
  match r with
  | .mk l rp fl none jp jd =>
    (n + 1, hup h n (fun _ => ⟨l.getD "", rp.getD "", fl, none, wireParent parent jp, jd⟩))
  | .mk l rp fl (some cs) jp jd =>
    let res := restoreList cs (some n) (n + 1) h
    (res.2.1, hup res.2.2 n (fun _ => ⟨l.getD "", rp.getD "", fl, some res.1, wireParent parent jp, jd⟩))

/-- Restore a list of records in order (allocated refs, next fresh, heap). -/
def restoreList (rs : List JRec) (parent : Option Ref) (n : Ref) (h : Ref → Obj) :
    List Ref × Ref × (Ref → Obj) :=
  match rs with
  | [] => ([], n, h)
  | r :: rest =>
    let res1 := restoreRec r parent n h
    let res2 := restoreList rest parent res1.1 res1.2
    (n :: res2.1, res2.2.1, res2.2.2)

end

/-- `this._favorites = parsed.map(f => this.restore(f))`: replace the root
collection by the records restored with no parent. -/
def restoredStore (h : Ref → Obj) (rs : List JRec) : Store :=
  ⟨(restoreList rs none 0 h).2.2, (restoreList rs none 0 h).1⟩

/-- The environment: the store plus the two persisted files.  A file is
`none` when absent; the favorites file content is modelled by its JSON parse
outcome (`Except.error` for a malformed buffer). -/
structure Sys where
  store : Store
  favFile : Option (Except String (List JRec))
  restoreFile : Option (List String)

/-- `FavoriteStore.refresh()`: read the favorites file (the read rejects if
the file is missing), `JSON.parse` it (which throws on a malformed buffer,
leaving `this._favorites` untouched), else replace the root collection with
the restored records.  No save of any kind is performed. -/
def refreshSys (sys : Sys) : Except String Sys :=
  match sys.favFile with
  | none => .error "FileNotFound"
  | some (.error m) => .error m
  | some (.ok rs) => .ok { sys with store := restoredStore sys.store.heap rs }

/-- `FavoriteManager.reloadFavorites()`: `try { await store.refresh() }
catch (err) { window.showErrorMessage(err.message) }` — on failure the
caught message is surfaced and the state is whatever `refresh` left. -/
def reloadFavorites (sys : Sys) : Sys × Option String :=
  match refreshSys sys with
  | .ok sys' => (sys', none)
  | .error m => (sys, some m)

/-- `FavoriteStore.createRestorationPoint(uris)`: overwrite the restoration
file with the path list. -/
def createRestorationPoint (sys : Sys) (paths : List String) : Sys :=
  { sys with restoreFile := some paths }

/-- `FavoriteStore.loadResorationPoint()`: `fs.stat` the restoration file —
which REJECTS with FileNotFound when the file is absent, so the
`if (!stat) { return []; }` guard is dead code — then read it, delete it,
and return the parsed path list. -/
def loadResorationPoint (sys : Sys) : Except String (List String) × Sys :=
  match sys.restoreFile with
  | none => (.error "FileNotFound", sys)
  | some paths => (.ok paths, { sys with restoreFile := none })

/-- C7: for every prior in-memory state and every buffer whose top-level
structure is malformed (JSON parse failure), `refresh` fails with the parse
error, `reloadFavorites` surfaces it as a reportable message, and the
in-memory state — store, heap and root collection — is left exactly at its
previous value. -/
theorem reload_parse_failure_atomic (sys : Sys) (m : String)
    (hbuf : sys.favFile = some (.error m)) :
    refreshSys sys = .error m ∧ reloadFavorites sys = (sys, some m) := by
  constructor <;> simp [refreshSys, reloadFavorites, hbuf]

/-- A state holding favorites in memory whose persisted file is malformed. -/
def sysC7 : Sys :=
  ⟨⟨fun i => if i = 5 then leafObj "A" "/a.txt" none else blankObj, [5]⟩,
    some (.error "SyntaxError: Unexpected token"), none⟩

theorem reload_parse_failure_atomic_witness :
    refreshSys sysC7 = .error "SyntaxError: Unexpected token"
    ∧ reloadFavorites sysC7 = (sysC7, some "SyntaxError: Unexpected token") :=
  reload_parse_failure_atomic sysC7 "SyntaxError: Unexpected token" rfl

/-- The persisted document `[{"resourcePath": "/a.txt"}]`: a single record
missing the `label` field the current format expects. -/
def brokenDoc : List JRec := [.mk none (some "/a.txt") none none none none]

/-- The document the load would have to persist to normalize the record. -/
def repairedDoc : List JRec := [.mk (some "") (some "/a.txt") none none none none]

/-- System whose favorites file holds the deficient document. -/
def sysC8 : Sys := ⟨⟨fun _ => blankObj, []⟩, some (.ok brokenDoc), none⟩

/-- C8 evidence: loading a document whose record is missing a field the
format expects succeeds and the in-memory entity gets the constructor
default (label `""`), but NO save is scheduled once load completes —
`refresh` contains no persist call (contradicting its own comment about
re-saving corrected data) — so the persisted document keeps the deficient
shape and a subsequent reload reads the same un-repaired document again. -/
theorem load_repair_never_saved :
    ∃ sys1, refreshSys sysC8 = .ok sys1
    ∧ sys1.store.favorites = [0]
    ∧ (sys1.store.heap 0).label = ""
    ∧ (sys1.store.heap 0).resourcePath = "/a.txt"
    ∧ sys1.favFile = some (.ok brokenDoc)
    ∧ sys1.favFile ≠ some (.ok repairedDoc)
    ∧ (∃ sys2, refreshSys sys1 = .ok sys2 ∧ sys2.favFile = some (.ok brokenDoc)
        ∧ (sys2.store.heap 0).label = "") := by
  refine ⟨_, rfl, rfl, ?_, ?_, rfl, ?_, ⟨_, rfl, rfl, ?_⟩⟩
  · simp [restoredStore, restoreList, restoreRec, brokenDoc, hup, wireParent]
  · simp [restoredStore, restoreList, restoreRec, brokenDoc, hup, wireParent]
  · intro h
    simp [sysC8, brokenDoc, repairedDoc] at h
  · simp [restoredStore, restoreList, restoreRec, brokenDoc, hup, wireParent]

/-- Bare system with no restoration file. -/
def sysC9 : Sys := ⟨⟨fun _ => blankObj, []⟩, none, none⟩

/-- C9 evidence: `createRestorationPoint(["/x","/y"])` then
`loadResorationPoint()` returns `["/x","/y"]` and deletes the file right
after reading; but the second immediate call REJECTS with FileNotFound —
`fs.stat` throws on a missing file, the `if (!stat) return []` guard never
fires — instead of returning `[]` as the spec claims. -/
theorem restoration_point_read_then_delete :
    (loadResorationPoint (createRestorationPoint sysC9 ["/x", "/y"])).1 = .ok ["/x", "/y"]
    ∧ (loadResorationPoint (createRestorationPoint sysC9 ["/x", "/y"])).2.restoreFile = none
    ∧ loadResorationPoint (loadResorationPoint (createRestorationPoint sysC9 ["/x", "/y"])).2
      = (.error "FileNotFound", (loadResorationPoint (createRestorationPoint sysC9 ["/x", "/y"])).2) :=
  ⟨rfl, rfl, rfl⟩

/-! ## The flattened favorites listing (`favoritesDeep` / `favorites()`) -/

/-- Assignment `y.description = d` on an entity. -/
def Bk.setDescr (d : String) : Bk → Bk
  | .fav l r _ => .fav l r (some d)
  | .folder l r f _ => .folder l r f (some d)
  | .group l _ cs => .group l (some d) cs

/-- The breadcrumb reduce of `favoritesDeep`:
`ancestors.reduce((acc, val) => acc + (acc.length === 0 ? '' : sep) + val.label, '')`. -/
def breadcrumb (ancestors : List String) : String :=
  ancestors.foldl (fun acc l => acc ++ (if acc.length = 0 then "" else sep) ++ l) ""

mutual

/-- `Group.favoritesDeep(ancestors)` for a Group with label `l` and children
`cs`: push the group onto the ancestor chain, compute the breadcrumb,
annotate every non-Group child with `` " $(folder) " + breadcrumb`` and
append the recursive results of the Group children. -/
def favoritesDeep (l : String) (cs : List Bk) (ancestors : List String) : List Bk :=
  (cs.filter (fun c => !c.isGroup)).map
      (Bk.setDescr (" $(folder) " ++ breadcrumb (ancestors ++ [l])))
    ++ favoritesDeepList cs (ancestors ++ [l])

/-- The `children.filter(Group.isGroup).flatMap(x => x.favoritesDeep(ancestors))`
part. -/
def favoritesDeepList (cs : List Bk) (anc : List String) : List Bk :=
  match cs with
  | [] => []
  | .group l _ cs' :: rest => favoritesDeep l cs' anc ++ favoritesDeepList rest anc
  | .fav _ _ _ :: rest => favoritesDeepList rest anc
  | .folder _ _ _ _ :: rest => favoritesDeepList rest anc

end

/-- `FavoriteStore.favorites()`: the top-level non-Groups (their descriptions
are NOT touched) followed by every top-level Group's `favoritesDeep([])`. -/
def storeFavorites (roots : List Bk) : List Bk :=
  roots.filter (fun c => !c.isGroup) ++ favoritesDeepList roots []

/-- Specification-side collection: every non-Group entity of a forest
together with the label path of its ancestor chain (root to parent), in
depth-first child order. -/
def collectFavs (path : List String) : List Bk → List (Bk × List String)
  | [] => []
  | .group l _ cs :: rest => collectFavs (path ++ [l]) cs ++ collectFavs path rest
  | b :: rest => (b, path) :: collectFavs path rest

/-- Specification-side breadcrumb: the labels joined with the path
separator. -/
def pathJoin : List String → String
  | [] => ""
  | [l] => l
  | l :: ls => l ++ sep ++ pathJoin ls

/-- What `favorites()` actually does to a collected entity: a nested entity
(non-empty ancestor path) gets the `" $(folder) "`-prefixed breadcrumb as
description, a top-level one is returned untouched. -/
def annotateFav (p : Bk × List String) : Bk :=
  match p.2 with
  | [] => p.1
  | _ => p.1.setDescr (" $(folder) " ++ pathJoin p.2)

theorem pathJoin_cons_cons (a x : String) (xs : List String) :
    pathJoin ((a ++ sep ++ x) :: xs) = a ++ sep ++ pathJoin (x :: xs) := by
  cases xs with
  | nil => simp [pathJoin]
  | cons y ys => simp [pathJoin, String.append_assoc]

theorem foldl_sep (ls : List String) (acc : String) (h : acc ≠ "") :
    ls.foldl (fun a l => a ++ (if a.length = 0 then "" else sep) ++ l) acc
      = pathJoin (acc :: ls) := by
  induction ls generalizing acc with
  | nil => simp [pathJoin]
  | cons x xs ih =>
    have hlen : ¬ acc.length = 0 := fun h0 => h (by
      cases acc with
      | mk data => cases data with
        | nil => rfl
        | cons c cs => simp [String.length] at h0)
    have hstep : ((acc ++ if acc.length = 0 then "" else sep) ++ x) = acc ++ sep ++ x := by
      rw [if_neg hlen]
    have hne2 : acc ++ sep ++ x ≠ "" := by
      intro hc
      have hl0 : (acc ++ sep ++ x).length = 0 := by rw [hc]; rfl
      rw [String.length_append, String.length_append] at hl0
      have hsep : sep.length = 1 := rfl
      omega
    rw [List.foldl_cons, hstep, ih (acc ++ sep ++ x) hne2, pathJoin_cons_cons]
    simp [pathJoin]

theorem breadcrumb_eq_pathJoin (l : String) (ls : List String) (hl : l ≠ "") :
    breadcrumb (l :: ls) = pathJoin (l :: ls) := by
  unfold breadcrumb
  simp only [List.foldl]
  rw [show ("" ++ (if ("" : String).length = 0 then "" else sep) ++ l) = l by simp]
  exact foldl_sep ls l hl

theorem perm_shuffle {α : Type} (A B C D E : List α)
    (h1 : List.Perm B D) (h2 : List.Perm (A ++ C) E) :
    List.Perm (A ++ (B ++ C)) (D ++ E) := by
  have s2 : List.Perm ((A ++ B) ++ C) ((B ++ A) ++ C) :=
    List.perm_append_comm.append_right C
  have s3 : List.Perm (B ++ (A ++ C)) (D ++ E) := List.Perm.append h1 h2
  rw [(List.append_assoc A B C).symm]
  exact s2.trans (by rw [List.append_assoc]; exact s3)

theorem isGroup_fav (l r : String) (d : Option String) :
    (Bk.fav l r d).isGroup = false := rfl

theorem isGroup_folder (l r f : String) (d : Option String) :
    (Bk.folder l r f d).isGroup = false := rfl

theorem isGroup_group (l : String) (d : Option String) (cs : List Bk) :
    (Bk.group l d cs).isGroup = true := rfl

theorem deepParts_perm : ∀ (cs : List Bk) (path : List String), path ≠ [] →
    (∀ p ∈ collectFavs path cs, ∀ x ∈ p.2, x ≠ "") →
    List.Perm
      ((cs.filter (fun c => !c.isGroup)).map
          (Bk.setDescr (" $(folder) " ++ breadcrumb path))
        ++ favoritesDeepList cs path)
      ((collectFavs path cs).map annotateFav)
  | [], path, _, _ => by simp [favoritesDeepList, collectFavs]
  | .fav l r d :: rest, path, hpath, hlab => by
    obtain ⟨h0, t, rfl⟩ : ∃ h0 t, path = h0 :: t := by
      cases path with
      | nil => exact absurd rfl hpath
      | cons a b => exact ⟨a, b, rfl⟩
    have hmem : (Bk.fav l r d, h0 :: t) ∈ collectFavs (h0 :: t) (.fav l r d :: rest) := by
      simp [collectFavs]
    have hh : h0 ≠ "" := hlab _ hmem h0 (by simp)
    have hbc : breadcrumb (h0 :: t) = pathJoin (h0 :: t) := breadcrumb_eq_pathJoin h0 t hh
    have hrec := deepParts_perm rest (h0 :: t) hpath
      (fun p hp => hlab p (by simp [collectFavs]; right; exact hp))
    have hfilter : (Bk.fav l r d :: rest).filter (fun c => !c.isGroup)
        = Bk.fav l r d :: rest.filter (fun c => !c.isGroup) := by
      simp [List.filter_cons, isGroup_fav]
    have hcol : collectFavs (h0 :: t) (Bk.fav l r d :: rest)
        = (Bk.fav l r d, h0 :: t) :: collectFavs (h0 :: t) rest := by
      simp [collectFavs]
    have hdl : favoritesDeepList (Bk.fav l r d :: rest) (h0 :: t)
        = favoritesDeepList rest (h0 :: t) := by
      simp [favoritesDeepList]
    have hhead : annotateFav (Bk.fav l r d, h0 :: t)
        = Bk.setDescr (" $(folder) " ++ breadcrumb (h0 :: t)) (Bk.fav l r d) := by
      simp [annotateFav, hbc]
    rw [hfilter, hcol, hdl, List.map_cons, List.map_cons, List.cons_append, hhead]
    exact List.Perm.cons _ hrec
  | .folder l r f d :: rest, path, hpath, hlab => by
    obtain ⟨h0, t, rfl⟩ : ∃ h0 t, path = h0 :: t := by
      cases path with
      | nil => exact absurd rfl hpath
      | cons a b => exact ⟨a, b, rfl⟩
    have hmem : (Bk.folder l r f d, h0 :: t)
        ∈ collectFavs (h0 :: t) (.folder l r f d :: rest) := by
      simp [collectFavs]
    have hh : h0 ≠ "" := hlab _ hmem h0 (by simp)
    have hbc : breadcrumb (h0 :: t) = pathJoin (h0 :: t) := breadcrumb_eq_pathJoin h0 t hh
    have hrec := deepParts_perm rest (h0 :: t) hpath
      (fun p hp => hlab p (by simp [collectFavs]; right; exact hp))
    have hfilter : (Bk.folder l r f d :: rest).filter (fun c => !c.isGroup)
        = Bk.folder l r f d :: rest.filter (fun c => !c.isGroup) := by
      simp [List.filter_cons, isGroup_folder]
    have hcol : collectFavs (h0 :: t) (Bk.folder l r f d :: rest)
        = (Bk.folder l r f d, h0 :: t) :: collectFavs (h0 :: t) rest := by
      simp [collectFavs]
    have hdl : favoritesDeepList (Bk.folder l r f d :: rest) (h0 :: t)
        = favoritesDeepList rest (h0 :: t) := by
      simp [favoritesDeepList]
    have hhead : annotateFav (Bk.folder l r f d, h0 :: t)
        = Bk.setDescr (" $(folder) " ++ breadcrumb (h0 :: t)) (Bk.folder l r f d) := by
      simp [annotateFav, hbc]
    rw [hfilter, hcol, hdl, List.map_cons, List.map_cons, List.cons_append, hhead]
    exact List.Perm.cons _ hrec
  | .group l' d' cs' :: rest, path, hpath, hlab => by
    have hsub := deepParts_perm cs' (path ++ [l']) (by simp)
      (fun p hp => hlab p (by simp [collectFavs]; left; exact hp))
    have hrest := deepParts_perm rest path hpath
      (fun p hp => hlab p (by simp [collectFavs]; right; exact hp))
    have hfilter : (Bk.group l' d' cs' :: rest).filter (fun c => !c.isGroup)
        = rest.filter (fun c => !c.isGroup) := by
      simp [List.filter_cons, isGroup_group]
    have hcol : collectFavs path (Bk.group l' d' cs' :: rest)
        = collectFavs (path ++ [l']) cs' ++ collectFavs path rest := by
      simp [collectFavs]
    have hdl : favoritesDeepList (Bk.group l' d' cs' :: rest) path
        = favoritesDeep l' cs' path ++ favoritesDeepList rest path := by
      simp [favoritesDeepList]
    rw [hfilter, hcol, hdl, List.map_append]
    exact perm_shuffle _ _ _ _ _ (by simpa [favoritesDeep] using hsub) hrest
termination_by cs => sizeOf cs

/-- C5 (amended): `favorites()` returns exactly every non-Group entity of
the tree — a permutation of the depth-first collection of non-Group
entities with their ancestor label paths — where each nested entity carries
the description `" $(folder) "` followed by the `sep`-joined ancestor label
path (root to parent), and each top-level entity is returned with its
description untouched.  The list is not sorted (the top-level non-Groups
come first in insertion order, then each top-level Group's subtree). -/
theorem favorites_flatten_amended : ∀ (roots : List Bk),
    (∀ p ∈ collectFavs [] roots, ∀ x ∈ p.2, x ≠ "") →
    List.Perm (storeFavorites roots) ((collectFavs [] roots).map annotateFav)
  | [], _ => by simp [storeFavorites, favoritesDeepList, collectFavs]
  | .fav l r d :: rest, hlab => by
    have hcol : collectFavs [] (Bk.fav l r d :: rest)
        = (Bk.fav l r d, []) :: collectFavs [] rest := by
      simp [collectFavs]
    have hrec := favorites_flatten_amended rest
      (fun p hp => hlab p (by rw [hcol]; exact List.mem_cons_of_mem _ hp))
    have hfilter : (Bk.fav l r d :: rest).filter (fun c => !c.isGroup)
        = Bk.fav l r d :: rest.filter (fun c => !c.isGroup) := by
      simp [List.filter_cons, isGroup_fav]
    have hdl : favoritesDeepList (Bk.fav l r d :: rest) []
        = favoritesDeepList rest [] := by
      simp [favoritesDeepList]
    have hhead : annotateFav (Bk.fav l r d, ([] : List String)) = Bk.fav l r d := by
      simp [annotateFav]
    simp only [storeFavorites] at hrec ⊢
    rw [hfilter, hcol, hdl, List.map_cons, List.cons_append, hhead]
    exact List.Perm.cons _ hrec
  | .folder l r f d :: rest, hlab => by
    have hcol : collectFavs [] (Bk.folder l r f d :: rest)
        = (Bk.folder l r f d, []) :: collectFavs [] rest := by
      simp [collectFavs]
    have hrec := favorites_flatten_amended rest
      (fun p hp => hlab p (by rw [hcol]; exact List.mem_cons_of_mem _ hp))
    have hfilter : (Bk.folder l r f d :: rest).filter (fun c => !c.isGroup)
        = Bk.folder l r f d :: rest.filter (fun c => !c.isGroup) := by
      simp [List.filter_cons, isGroup_folder]
    have hdl : favoritesDeepList (Bk.folder l r f d :: rest) []
        = favoritesDeepList rest [] := by
      simp [favoritesDeepList]
    have hhead : annotateFav (Bk.folder l r f d, ([] : List String)) = Bk.folder l r f d := by
      simp [annotateFav]
    simp only [storeFavorites] at hrec ⊢
    rw [hfilter, hcol, hdl, List.map_cons, List.cons_append, hhead]
    exact List.Perm.cons _ hrec
  | .group l' d' cs' :: rest, hlab => by
    have hcol : collectFavs [] (Bk.group l' d' cs' :: rest)
        = collectFavs [l'] cs' ++ collectFavs [] rest := by
      simp [collectFavs]
    have hsub := deepParts_perm cs' [l'] (by simp)
      (fun p hp => hlab p (by rw [hcol]; exact List.mem_append_left _ hp))
    have hrec := favorites_flatten_amended rest
      (fun p hp => hlab p (by rw [hcol]; exact List.mem_append_right _ hp))
    have hfilter : (Bk.group l' d' cs' :: rest).filter (fun c => !c.isGroup)
        = rest.filter (fun c => !c.isGroup) := by
      simp [List.filter_cons, isGroup_group]
    have hdl : favoritesDeepList (Bk.group l' d' cs' :: rest) []
        = favoritesDeep l' cs' [] ++ favoritesDeepList rest [] := by
      simp [favoritesDeepList]
    simp only [storeFavorites] at hrec ⊢
    rw [hfilter, hcol, hdl, List.map_append]
    exact perm_shuffle _ _ _ _ _ (by simpa [favoritesDeep] using hsub) hrec
termination_by roots => sizeOf roots

/-- The forest `[Favorite "B", Group "G" [Favorite "A"]]`. -/
def rootsC5 : List Bk := [.fav "B" "/b" none, .group "G" none [.fav "A" "/a" none]]

/-- C5 counterexample: `favorites()` on `[B, G[A]]` returns `[B, A]` — not
sorted by the §4.2 ordering restricted to labels (A's label precedes B's,
yet B comes first), and the nested favorite's description is
`" $(folder) G"`, not the bare label-path breadcrumb `"G"`. -/
theorem favorites_unsorted_counterexample :
    storeFavorites rootsC5
      = [.fav "B" "/b" none, .fav "A" "/a" (some " $(folder) G")]
    ∧ 0 < bookmarkableComparator (.fav "B" "/b" none)
        (.fav "A" "/a" (some " $(folder) G"))
    ∧ Bk.descr (.fav "A" "/a" (some " $(folder) G")) ≠ some "G" := by
  refine ⟨?_, ?_, by decide⟩
  · have hb : breadcrumb ["G"] = "G" := rfl
    have hs : " $(folder) " ++ "G" = " $(folder) G" := rfl
    simp [rootsC5, storeFavorites, favoritesDeepList, favoritesDeep, Bk.setDescr,
      isGroup_fav, isGroup_group, hb, hs]
  · have hBA : ¬ ("B" : String) < "A" := by
      rw [String.lt_iff_toList_lt]; decide
    have hAB : ("A" : String) < "B" := by
      rw [String.lt_iff_toList_lt]; decide
    simp [bookmarkableComparator, localeCompare, isGroup_fav, Bk.label, hBA, hAB]

theorem favorites_flatten_amended_witness :
    List.Perm (storeFavorites rootsC5) ((collectFavs [] rootsC5).map annotateFav) := by
  have hc : collectFavs [] rootsC5
      = [(Bk.fav "B" "/b" none, []), (Bk.fav "A" "/a" none, ["G"])] := by
    simp [rootsC5, collectFavs]
  refine favorites_flatten_amended rootsC5 ?_
  intro p hp x hx
  rw [hc] at hp
  rcases List.mem_cons.mp hp with h | h
  · subst h; simp at hx
  · rcases List.mem_cons.mp h with h2 | h2
    · subst h2
      simp at hx
      subst hx
      decide
    · simp at h2

/-! ## Round trip: serialization (`toJSON`) and the Reconciler's `restore` -/

mutual

/-- `toJSON` of the three variants: Group → `{label, children}`
(recursively), Favorite → `{label, resourcePath}`, Folder →
`{label, filter, resourcePath}`.  Parent back-references and the transient
`description` are never serialized. -/
def serializeBk : Bk → JRec
  | .fav l r _ => .mk (some l) (some r) none none none none
  | .folder l r f _ => .mk (some l) (some r) (some f) none none none
  | .group l _ cs => .mk (some l) none none (some (serializeBkList cs)) none none

def serializeBkList : List Bk → List JRec
  | [] => []
  | b :: rest => serializeBk b :: serializeBkList rest

end

mutual

/-- Clear every transient description of a tree. -/
def eraseDescr : Bk → Bk
  | .fav l r _ => .fav l r none
  | .folder l r f _ => .folder l r f none
  | .group l _ cs => .group l none (eraseDescrList cs)

def eraseDescrList : List Bk → List Bk
  | [] => []
  | b :: rest => eraseDescr b :: eraseDescrList rest

end

/-- `Represents h i b`: the object graph rooted at reference `i` of heap `h`
has exactly the structure of tree `b`: same structurally-classified variant,
same label, resourcePath, filter and description, same children, in order. -/
inductive Represents (h : Ref → Obj) : Ref → Bk → Prop where
  | fav {i : Ref} {l r : String} {d : Option String} :
      (h i).children = none → (h i).filter = none →
      (h i).label = l → (h i).resourcePath = r → (h i).descr = d →
      Represents h i (.fav l r d)
  | folder {i : Ref} {l r f : String} {d : Option String} :
      (h i).children = none → (h i).filter = some f →
      (h i).label = l → (h i).resourcePath = r → (h i).descr = d →
      Represents h i (.folder l r f d)
  | group {i : Ref} {l : String} {d : Option String} {cs : List Ref} {bs : List Bk} :
      (h i).children = some cs → (h i).label = l → (h i).descr = d →
      List.Forall₂ (Represents h) cs bs →
      Represents h i (.group l d bs)

/-- Parent wiring of the object graph rooted at `i`: the root's `parent`
field equals `par`, every Group's children list is duplicate-free, and every
child's `parent` field points back to its containing Group. -/
inductive Wired (h : Ref → Obj) : Option Ref → Ref → Prop where
  | leaf {par : Option Ref} {i : Ref} :
      (h i).children = none → (h i).parent = par → Wired h par i
  | group {par : Option Ref} {i : Ref} {cs : List Ref} :
      (h i).children = some cs → (h i).parent = par → cs.Nodup →
      (∀ c ∈ cs, Wired h (some i) c) → Wired h par i

/-- The wiring argument, when given, wins over the copied `parent` key. -/
theorem wireParent_some (p : Ref) (c : Option Ref) : wireParent (some p) c = some p := rfl

/-- With no wiring argument the copied `parent` key survives. -/
theorem wireParent_none (c : Option Ref) : wireParent none c = c := rfl

/-- On a record with no retained `parent` key the wiring is exactly the
argument. -/
theorem wireParent_copied_none (par : Option Ref) : wireParent par none = par := by
  cases par <;> rfl

/-- The wiring is the argument whenever the copied key is absent in the
only case where it could survive. -/
theorem wireParent_eq (par jp : Option Ref) (h : par = none → jp = none) :
    wireParent par jp = par := by
  cases par with
  | none => rw [wireParent_none, h rfl]
  | some p => rfl

/-- Components of `restoreRec` on a record without `children` (a Favorite
or Folder): allocate at `n`. -/
theorem restoreRec_leaf (l rp fl : Option String) (jp : Option Ref) (jd : Option String)
    (par : Option Ref) (n : Ref) (h : Ref → Obj) :
    restoreRec (.mk l rp fl none jp jd) par n h
      = (n + 1, hup h n (fun _ => ⟨l.getD "", rp.getD "", fl, none, wireParent par jp, jd⟩)) := by
  unfold restoreRec
  rfl

/-- Components of `restoreRec` on a Group record: children are allocated
from `n + 1` with the group `n` as parent, then the group object itself is
written at `n`. -/
theorem restoreRec_group (l rp fl : Option String) (cs : List JRec) (jp : Option Ref)
    (jd : Option String) (par : Option Ref) (n : Ref) (h : Ref → Obj) :
    restoreRec (.mk l rp fl (some cs) jp jd) par n h
      = ((restoreList cs (some n) (n + 1) h).2.1,
         hup (restoreList cs (some n) (n + 1) h).2.2 n
           (fun _ => ⟨l.getD "", rp.getD "", fl,
             some (restoreList cs (some n) (n + 1) h).1, wireParent par jp, jd⟩)) := by
  unfold restoreRec
  rfl

theorem restoreList_nil (par : Option Ref) (n : Ref) (h : Ref → Obj) :
    restoreList [] par n h = ([], n, h) := by
  unfold restoreList
  rfl

theorem restoreList_cons (r : JRec) (rest : List JRec) (par : Option Ref)
    (n : Ref) (h : Ref → Obj) :
    restoreList (r :: rest) par n h
      = (n :: (restoreList rest par (restoreRec r par n h).1 (restoreRec r par n h).2).1,
         (restoreList rest par (restoreRec r par n h).1 (restoreRec r par n h).2).2.1,
         (restoreList rest par (restoreRec r par n h).1 (restoreRec r par n h).2).2.2) := by
  conv_lhs => unfold restoreList

theorem split_ne {j n m : Nat} (hnm : n < m) (h : j < n ∨ m ≤ j) : j ≠ n := by
  omega

theorem split_widen {j n m : Nat} (h : j < n ∨ m ≤ j) : j < n + 1 ∨ m ≤ j := by
  omega

theorem split_right {j n n1 n2 : Nat} (h1 : n < n1) (h : j < n ∨ n2 ≤ j) :
    j < n1 ∨ n2 ≤ j := by
  omega

theorem split_left {j n n1 n2 : Nat} (h2 : n1 ≤ n2) (h : j < n ∨ n2 ≤ j) :
    j < n ∨ n1 ≤ j := by
  omega

theorem fst_pair (a : Ref) (f : Ref → Obj) : (Prod.mk a f).1 = a := rfl

theorem snd_pair (a : Ref) (f : Ref → Obj) : (Prod.mk a f).2 = f := rfl

theorem triple_ids (ids : List Ref) (nx : Ref) (hp : Ref → Obj) :
    (Prod.mk ids (Prod.mk nx hp)).1 = ids := rfl

theorem triple_next (ids : List Ref) (nx : Ref) (hp : Ref → Obj) :
    (Prod.mk ids (Prod.mk nx hp)).2.1 = nx := rfl

theorem triple_heap (ids : List Ref) (nx : Ref) (hp : Ref → Obj) :
    (Prod.mk ids (Prod.mk nx hp)).2.2 = hp := rfl

mutual

theorem restoreRec_next_gt : ∀ (r : JRec) (par : Option Ref) (n : Ref) (h : Ref → Obj),
    n < (restoreRec r par n h).1
  | .mk l rp fl none jp jd, par, n, h => by
    rw [restoreRec_leaf, fst_pair]
    exact Nat.lt_succ_self n
  | .mk l rp fl (some cs) jp jd, par, n, h => by
    have h1 := restoreList_next_ge cs (some n) (n + 1) h
    rw [restoreRec_group, fst_pair]
    exact Nat.lt_of_lt_of_le (Nat.lt_succ_self n) h1

theorem restoreList_next_ge : ∀ (rs : List JRec) (par : Option Ref) (n : Ref) (h : Ref → Obj),
    n ≤ (restoreList rs par n h).2.1
  | [], par, n, h => by
    rw [restoreList_nil, triple_next]
  | r :: rest, par, n, h => by
    have h1 := restoreRec_next_gt r par n h
    have h2 := restoreList_next_ge rest par (restoreRec r par n h).1 (restoreRec r par n h).2
    rw [restoreList_cons, triple_next]
    exact Nat.le_trans (Nat.le_of_lt h1) h2

end

mutual

theorem restoreRec_frame : ∀ (r : JRec) (par : Option Ref) (n : Ref) (h : Ref → Obj) (j : Ref),
    j < n ∨ (restoreRec r par n h).1 ≤ j → (restoreRec r par n h).2 j = h j
  | .mk l rp fl none jp jd, par, n, h, j, hj => by
    rw [restoreRec_leaf, fst_pair] at hj
    rw [restoreRec_leaf, snd_pair]
    exact hup_ne _ _ _ _ (split_ne (Nat.lt_succ_self n) hj)
  | .mk l rp fl (some cs) jp jd, par, n, h, j, hj => by
    have hge := restoreList_next_ge cs (some n) (n + 1) h
    rw [restoreRec_group, fst_pair] at hj
    rw [restoreRec_group, snd_pair]
    rw [hup_ne _ _ _ _ (split_ne (Nat.lt_of_lt_of_le (Nat.lt_succ_self n) hge) hj)]
    exact restoreList_frame cs (some n) (n + 1) h j (split_widen hj)

theorem restoreList_frame : ∀ (rs : List JRec) (par : Option Ref) (n : Ref) (h : Ref → Obj) (j : Ref),
    j < n ∨ (restoreList rs par n h).2.1 ≤ j → (restoreList rs par n h).2.2 j = h j
  | [], par, n, h, j, hj => by
    rw [restoreList_nil, triple_heap]
  | r :: rest, par, n, h, j, hj => by
    have hg1 := restoreRec_next_gt r par n h
    have hg2 := restoreList_next_ge rest par (restoreRec r par n h).1 (restoreRec r par n h).2
    rw [restoreList_cons, triple_next] at hj
    rw [restoreList_cons, triple_heap]
    rw [restoreList_frame rest par _ _ j (split_right hg1 hj)]
    exact restoreRec_frame r par n h j (split_left hg2 hj)

end

theorem restoreList_ids_bounds : ∀ (rs : List JRec) (par : Option Ref) (n : Ref) (h : Ref → Obj),
    ∀ i ∈ (restoreList rs par n h).1, n ≤ i ∧ i < (restoreList rs par n h).2.1
  | [], par, n, h => by
    rw [restoreList_nil, triple_ids]
    intro i hi
    simp at hi
  | r :: rest, par, n, h => by
    have hg1 := restoreRec_next_gt r par n h
    have hg2 := restoreList_next_ge rest par (restoreRec r par n h).1 (restoreRec r par n h).2
    have hrec := restoreList_ids_bounds rest par (restoreRec r par n h).1 (restoreRec r par n h).2
    intro i hi
    rw [restoreList_cons, triple_ids] at hi
    rw [restoreList_cons, triple_next]
    rcases List.mem_cons.mp hi with hi | hi
    · subst hi
      exact ⟨Nat.le_refl _, Nat.lt_of_lt_of_le hg1 hg2⟩
    · have hb := hrec i hi
      exact ⟨Nat.le_trans (Nat.le_of_lt hg1) hb.1, hb.2⟩

theorem restoreList_ids_pairwise : ∀ (rs : List JRec) (par : Option Ref) (n : Ref) (h : Ref → Obj),
    (restoreList rs par n h).1.Pairwise (· < ·)
  | [], par, n, h => by
    rw [restoreList_nil, triple_ids]
    simp
  | r :: rest, par, n, h => by
    have hg1 := restoreRec_next_gt r par n h
    have hbd := restoreList_ids_bounds rest par (restoreRec r par n h).1 (restoreRec r par n h).2
    have hrec := restoreList_ids_pairwise rest par (restoreRec r par n h).1 (restoreRec r par n h).2
    rw [restoreList_cons, triple_ids]
    refine List.Pairwise.cons ?_ hrec
    intro i hi
    exact Nat.lt_of_lt_of_le hg1 (hbd i hi).1

theorem serializeBk_fav (l r : String) (d : Option String) :
    serializeBk (.fav l r d) = .mk (some l) (some r) none none none none := by
  unfold serializeBk
  rfl

theorem serializeBk_folder (l r f : String) (d : Option String) :
    serializeBk (.folder l r f d) = .mk (some l) (some r) (some f) none none none := by
  unfold serializeBk
  rfl

theorem serializeBk_group (l : String) (d : Option String) (cs : List Bk) :
    serializeBk (.group l d cs) = .mk (some l) none none (some (serializeBkList cs)) none none := by
  unfold serializeBk
  rfl

theorem serializeBkList_nil : serializeBkList [] = [] := by
  unfold serializeBkList
  rfl

theorem serializeBkList_cons (b : Bk) (rest : List Bk) :
    serializeBkList (b :: rest) = serializeBk b :: serializeBkList rest := by
  conv_lhs => unfold serializeBkList

theorem eraseDescr_fav (l r : String) (d : Option String) :
    eraseDescr (.fav l r d) = .fav l r none := by
  unfold eraseDescr
  rfl

theorem eraseDescr_folder (l r f : String) (d : Option String) :
    eraseDescr (.folder l r f d) = .folder l r f none := by
  unfold eraseDescr
  rfl

theorem eraseDescr_group (l : String) (d : Option String) (cs : List Bk) :
    eraseDescr (.group l d cs) = .group l none (eraseDescrList cs) := by
  unfold eraseDescr
  rfl

theorem eraseDescrList_nil : eraseDescrList [] = [] := by
  unfold eraseDescrList
  rfl

theorem eraseDescrList_cons (b : Bk) (rest : List Bk) :
    eraseDescrList (b :: rest) = eraseDescr b :: eraseDescrList rest := by
  conv_lhs => unfold eraseDescrList

mutual

/-- Any heap agreeing with the result of `restoreRec` on the allocated range
has the parent back-references of the restored fragment correctly wired —
provided that, when no wiring argument is passed (the top-level call), the
record carries no retained `parent` key of its own: the root object then
carries the `parent` passed in, and every restored Group's children point
back to it (their copied keys are always overridden by the wiring). -/
theorem restoreRec_wired : ∀ (r : JRec) (par : Option Ref) (n : Ref) (h : Ref → Obj)
    (h2 : Ref → Obj),
    (par = none → r.parent = none) →
    (∀ j, n ≤ j → j < (restoreRec r par n h).1 → h2 j = (restoreRec r par n h).2 j) →
    Wired h2 par n
  | .mk l rp fl none jp jd, par, n, h, h2, hjp, hag => by
    have hn : h2 n = ⟨l.getD "", rp.getD "", fl, none, wireParent par jp, jd⟩ := by
      have hh := hag n (Nat.le_refl n)
        (by rw [restoreRec_leaf, fst_pair]; exact Nat.lt_succ_self n)
      rw [restoreRec_leaf, snd_pair, hup_eq] at hh
      exact hh
    exact Wired.leaf (by rw [hn]) (by rw [hn]; exact wireParent_eq par jp hjp)
  | .mk l rp fl (some cs) jp jd, par, n, h, h2, hjp, hag => by
    have hge := restoreList_next_ge cs (some n) (n + 1) h
    have hn : h2 n = ⟨l.getD "", rp.getD "", fl,
        some (restoreList cs (some n) (n + 1) h).1, wireParent par jp, jd⟩ := by
      have hh := hag n (Nat.le_refl n)
        (by rw [restoreRec_group, fst_pair]
            exact Nat.lt_of_lt_of_le (Nat.lt_succ_self n) hge)
      rw [restoreRec_group, snd_pair, hup_eq] at hh
      exact hh
    have hch := restoreList_wired cs (some n) (n + 1) h h2 (fun hcon => nomatch hcon) (by
      intro j hj1 hj2
      have hh := hag j (Nat.le_trans (Nat.le_succ n) hj1)
        (by rw [restoreRec_group, fst_pair]; exact hj2)
      rw [restoreRec_group, snd_pair,
        hup_ne _ _ _ _ (Nat.ne_of_gt (Nat.lt_of_lt_of_le (Nat.lt_succ_self n) hj1))] at hh
      exact hh)
    have hnd : (restoreList cs (some n) (n + 1) h).1.Nodup :=
      (restoreList_ids_pairwise cs (some n) (n + 1) h).imp (fun hlt => Nat.ne_of_lt hlt)
    exact Wired.group (by rw [hn]) (by rw [hn]; exact wireParent_eq par jp hjp) hnd hch

theorem restoreList_wired : ∀ (rs : List JRec) (par : Option Ref) (n : Ref) (h : Ref → Obj)
    (h2 : Ref → Obj),
    (par = none → ∀ r ∈ rs, JRec.parent r = none) →
    (∀ j, n ≤ j → j < (restoreList rs par n h).2.1 → h2 j = (restoreList rs par n h).2.2 j) →
    ∀ c ∈ (restoreList rs par n h).1, Wired h2 par c
  | [], par, n, h, h2, hjp, hag => by
    rw [restoreList_nil, triple_ids]
    intro c hc
    simp at hc
  | r :: rest, par, n, h, h2, hjp, hag => by
    have hg1 := restoreRec_next_gt r par n h
    have hg2 := restoreList_next_ge rest par (restoreRec r par n h).1 (restoreRec r par n h).2
    intro c hc
    rw [restoreList_cons, triple_ids] at hc
    rcases List.mem_cons.mp hc with hc | hc
    · subst hc
      refine restoreRec_wired r par c h h2 (fun h0 => hjp h0 r (List.mem_cons_self r rest)) ?_
      intro j hj1 hj2
      have hh := hag j hj1 (by
        rw [restoreList_cons, triple_next]
        exact Nat.lt_of_lt_of_le hj2 hg2)
      rw [restoreList_cons, triple_heap] at hh
      rw [hh]
      exact restoreList_frame rest par _ _ j (Or.inl hj2)
    · refine restoreList_wired rest par (restoreRec r par n h).1 (restoreRec r par n h).2 h2
        (fun h0 r' hr' => hjp h0 r' (List.mem_cons_of_mem r hr')) ?_ c hc
      intro j hj1 hj2
      have hh := hag j (Nat.le_trans (Nat.le_of_lt hg1) hj1) (by
        rw [restoreList_cons, triple_next]
        exact hj2)
      rw [restoreList_cons, triple_heap] at hh
      exact hh

end

mutual

/-- Any heap agreeing with `restoreRec (serializeBk b)` on the allocated
range represents, at the allocated root, exactly `b` with its transient
description cleared. -/
theorem restoreRec_represents : ∀ (b : Bk) (par : Option Ref) (n : Ref) (h : Ref → Obj)
    (h2 : Ref → Obj),
    (∀ j, n ≤ j → j < (restoreRec (serializeBk b) par n h).1 →
      h2 j = (restoreRec (serializeBk b) par n h).2 j) →
    Represents h2 n (eraseDescr b)
  | .fav l r d, par, n, h, h2, hag => by
    rw [serializeBk_fav] at hag
    have hn : h2 n = ⟨(some l).getD "", (some r).getD "", none, none, wireParent par none, none⟩ := by
      have hh := hag n (Nat.le_refl n)
        (by rw [restoreRec_leaf, fst_pair]; exact Nat.lt_succ_self n)
      rw [restoreRec_leaf, snd_pair, hup_eq] at hh
      exact hh
    rw [eraseDescr_fav]
    exact Represents.fav (by rw [hn]) (by rw [hn]) (by rw [hn]; rfl) (by rw [hn]; rfl)
      (by rw [hn])
  | .folder l r f d, par, n, h, h2, hag => by
    rw [serializeBk_folder] at hag
    have hn : h2 n = ⟨(some l).getD "", (some r).getD "", some f, none, wireParent par none, none⟩ := by
      have hh := hag n (Nat.le_refl n)
        (by rw [restoreRec_leaf, fst_pair]; exact Nat.lt_succ_self n)
      rw [restoreRec_leaf, snd_pair, hup_eq] at hh
      exact hh
    rw [eraseDescr_folder]
    exact Represents.folder (by rw [hn]) (by rw [hn]) (by rw [hn]; rfl) (by rw [hn]; rfl)
      (by rw [hn])
  | .group l d cs, par, n, h, h2, hag => by
    rw [serializeBk_group] at hag
    have hge := restoreList_next_ge (serializeBkList cs) (some n) (n + 1) h
    have hn : h2 n = ⟨(some l).getD "", (none : Option String).getD "", none,
        some (restoreList (serializeBkList cs) (some n) (n + 1) h).1, wireParent par none, none⟩ := by
      have hh := hag n (Nat.le_refl n)
        (by rw [restoreRec_group, fst_pair]
            exact Nat.lt_of_lt_of_le (Nat.lt_succ_self n) hge)
      rw [restoreRec_group, snd_pair, hup_eq] at hh
      exact hh
    have hch := restoreList_represents cs (some n) (n + 1) h h2 (by
      intro j hj1 hj2
      have hh := hag j (Nat.le_trans (Nat.le_succ n) hj1)
        (by rw [restoreRec_group, fst_pair]; exact hj2)
      rw [restoreRec_group, snd_pair,
        hup_ne _ _ _ _ (Nat.ne_of_gt (Nat.lt_of_lt_of_le (Nat.lt_succ_self n) hj1))] at hh
      exact hh)
    rw [eraseDescr_group]
    exact Represents.group (by rw [hn]) (by rw [hn]; rfl) (by rw [hn]) hch

theorem restoreList_represents : ∀ (bs : List Bk) (par : Option Ref) (n : Ref)
    (h : Ref → Obj) (h2 : Ref → Obj),
    (∀ j, n ≤ j → j < (restoreList (serializeBkList bs) par n h).2.1 →
      h2 j = (restoreList (serializeBkList bs) par n h).2.2 j) →
    List.Forall₂ (Represents h2) (restoreList (serializeBkList bs) par n h).1
      (eraseDescrList bs)
  | [], par, n, h, h2, hag => by
    rw [serializeBkList_nil, restoreList_nil, triple_ids, eraseDescrList_nil]
    exact List.Forall₂.nil
  | b :: rest, par, n, h, h2, hag => by
    rw [serializeBkList_cons] at hag
    rw [serializeBkList_cons, restoreList_cons, triple_ids, eraseDescrList_cons]
    have hg1 := restoreRec_next_gt (serializeBk b) par n h
    have hg2 := restoreList_next_ge (serializeBkList rest) par
      (restoreRec (serializeBk b) par n h).1 (restoreRec (serializeBk b) par n h).2
    refine List.Forall₂.cons ?_ ?_
    · refine restoreRec_represents b par n h h2 ?_
      intro j hj1 hj2
      have hh := hag j hj1 (by
        rw [restoreList_cons, triple_next]
        exact Nat.lt_of_lt_of_le hj2 hg2)
      rw [restoreList_cons, triple_heap] at hh
      rw [hh]
      exact restoreList_frame (serializeBkList rest) par _ _ j (Or.inl hj2)
    · refine restoreList_represents rest par (restoreRec (serializeBk b) par n h).1
        (restoreRec (serializeBk b) par n h).2 h2 ?_
      intro j hj1 hj2
      have hh := hag j (Nat.le_trans (Nat.le_of_lt hg1) hj1) (by
        rw [restoreList_cons, triple_next]
        exact hj2)
      rw [restoreList_cons, triple_heap] at hh
      exact hh

end

theorem wired_all_inTree (h : Ref → Obj) (favs : List Ref)
    (hw : ∀ i ∈ favs, Wired h none i) :
    ∀ x, InTree ⟨h, favs⟩ x → ∃ pp, Wired h pp x := by
  intro x hx
  induction hx with
  | root hm => exact ⟨none, hw _ hm⟩
  | child hg hm ih =>
    obtain ⟨pp, hwg⟩ := ih
    cases hwg with
    | leaf hch hpar =>
      rw [childrenOf] at hm
      simp only at hm
      rw [hch] at hm
      simp at hm
    | group hch hpar hnd hall =>
      rw [childrenOf] at hm
      simp only at hm
      rw [hch] at hm
      simp only [Option.getD_some] at hm
      exact ⟨_, hall _ hm⟩

theorem wired_parentOK (h : Ref → Obj) (favs : List Ref)
    (hw : ∀ i ∈ favs, Wired h none i) :
    ParentOK ⟨h, favs⟩ := by
  constructor
  · intro e he
    cases hw e he with
    | leaf _ hp => exact hp
    | group _ hp _ _ => exact hp
  · intro g hg e he
    obtain ⟨pp, hwg⟩ := wired_all_inTree h favs hw g hg
    cases hwg with
    | leaf hch hpar =>
      rw [childrenOf] at he
      simp only at he
      rw [hch] at he
      simp at he
    | group hch hpar hnd hall =>
      rw [childrenOf] at he
      simp only at he
      rw [hch] at he
      simp only [Option.getD_some] at he
      cases hall e he with
      | leaf _ hp => exact hp
      | group _ hp _ _ => exact hp

/-- `toJSON` never emits a `parent` key. -/
theorem serializeBk_parent_none (b : Bk) : (serializeBk b).parent = none := by
  cases b with
  | fav l r d => rw [serializeBk_fav]; rfl
  | folder l r f d => rw [serializeBk_folder]; rfl
  | group l d cs => rw [serializeBk_group]; rfl

theorem serializeBkList_parent_none (T : List Bk) :
    ∀ r ∈ serializeBkList T, JRec.parent r = none := by
  induction T with
  | nil =>
    rw [serializeBkList_nil]
    intro r hr
    simp at hr
  | cons b rest ih =>
    rw [serializeBkList_cons]
    intro r hr
    rcases List.mem_cons.mp hr with rfl | hr
    · exact serializeBk_parent_none b
    · exact ih r hr

/-- C1: for every forest `T` of Leaf, Folder and Group entities (any tree
the store's `add`/`addChild` can build), serializing the root collection
with the entities' `toJSON` and deserializing the resulting document with
the Reconciler's `restore` yields a forest structurally equal to `T` — same
labels, resourcePaths and filters, same parent/child topology, with every
transient description cleared (they are never persisted) — and with the
parent back-references wired to the exact containing Group object (root
objects carry no parent). -/
theorem roundtrip_restore (T : List Bk) (h : Ref → Obj) :
    List.Forall₂ (Represents (restoredStore h (serializeBkList T)).heap)
      (restoredStore h (serializeBkList T)).favorites (eraseDescrList T)
    ∧ ParentOK (restoredStore h (serializeBkList T)) :=
  ⟨restoreList_represents T none 0 h _ (fun _ _ _ => rfl),
   wired_parentOK _ _
     (restoreList_wired (serializeBkList T) none 0 h _
       (fun _ => serializeBkList_parent_none T) (fun _ _ _ => rfl))⟩

/-! ## The forest invariant under the store's mutations -/

/-- An entity detached from the tree: not at root level, not in any tree
Group's children. -/
def Detached (s : Store) (e : Ref) : Prop :=
  e ∉ s.favorites ∧ ∀ g, InTree s g → e ∉ childrenOf s g

/-- Internal parent consistency of the (detached) subtree hanging below
`e`: inside it, every child points back to its containing Group. -/
def SubOK (s : Store) (e : Ref) : Prop :=
  ∀ x, Desc s e x → ∀ y ∈ childrenOf s x, (s.heap y).parent = some x

theorem addChild_favorites (s : Store) (g e : Ref) :
    (addChild s g e).favorites = s.favorites := by
  unfold addChild
  cases (s.heap g).children <;> rfl

theorem addChild_heap_children (s : Store) (g e : Ref) (cs : List Ref)
    (hcs : (s.heap g).children = some cs) (hne : e ≠ g) (x : Ref) :
    ((addChild s g e).heap x).children
      = if x = g then some (cs ++ [e]) else (s.heap x).children := by
  unfold addChild
  rw [hcs]
  by_cases hxg : x = g
  · subst hxg
    simp [hup, hne, Ne.symm hne]
  · by_cases hxe : x = e
    · subst hxe
      simp [hup, hxg]
    · simp [hup, hxg, hxe]

theorem addChild_heap_parent (s : Store) (g e : Ref) (cs : List Ref)
    (hcs : (s.heap g).children = some cs) (hne : e ≠ g) (x : Ref) :
    ((addChild s g e).heap x).parent
      = if x = e then some g else (s.heap x).parent := by
  unfold addChild
  rw [hcs]
  by_cases hxe : x = e
  · subst hxe
    simp [hup]
  · by_cases hxg : x = g
    · subst hxg
      simp [hup, hxe, Ne.symm hne]
    · simp [hup, hxg, hxe]

theorem removeChild_favorites (s : Store) (p e : Ref) :
    (removeChild s p e).favorites = s.favorites := by
  unfold removeChild
  cases (s.heap p).children with
  | none => rfl
  | some cs =>
    by_cases hmem : e ∈ cs <;> simp [hmem]

theorem removeChild_heap_children (s : Store) (p e : Ref) (cs : List Ref)
    (hcs : (s.heap p).children = some cs) (hmem : e ∈ cs) (x : Ref) :
    ((removeChild s p e).heap x).children
      = if x = p then some (cs.erase e) else (s.heap x).children := by
  unfold removeChild
  rw [hcs]
  simp only [hmem, if_pos]
  by_cases hxp : x = p
  · subst hxp
    simp [hup]
  · by_cases hxe : x = e
    · subst hxe
      simp [hup, hxp]
    · simp [hup, hxp, hxe]

theorem removeChild_heap_parent (s : Store) (p e : Ref) (cs : List Ref)
    (hcs : (s.heap p).children = some cs) (hmem : e ∈ cs) (x : Ref) :
    ((removeChild s p e).heap x).parent
      = if x = e then none else (s.heap x).parent := by
  unfold removeChild
  rw [hcs]
  simp only [hmem, if_pos]
  by_cases hxe : x = e
  · subst hxe
    by_cases hxp : x = p
    · subst hxp
      simp [hup]
    · simp [hup, hxp]
  · by_cases hxp : x = p
    · subst hxp
      simp [hup, hxe]
    · simp [hup, hxp, hxe]

/-- Reachability is monotone in the root collection and the children
arrays. -/
theorem reach_mono (s t : Store)
    (hf : ∀ x ∈ s.favorites, x ∈ t.favorites)
    (hc : ∀ g y, y ∈ childrenOf s g → y ∈ childrenOf t g) :
    ∀ x, InTree s x → InTree t x := by
  intro x hx
  induction hx with
  | root hm => exact InTree.root (hf _ hm)
  | child _ hm ih => exact InTree.child ih (hc _ _ hm)

theorem desc_mono (s t : Store) (e : Ref)
    (hc : ∀ g y, y ∈ childrenOf s g → y ∈ childrenOf t g) :
    ∀ x, Desc s e x → Desc t e x := by
  intro x hx
  induction hx with
  | refl => exact Desc.refl
  | child _ hm ih => exact Desc.child ih (hc _ _ hm)

/-- Survival of reachability when only `e` (outside the node's subtree) is
removed from containers. -/
theorem reach_minus (s t : Store) (e : Ref)
    (hf : ∀ x ∈ s.favorites, x ≠ e → x ∈ t.favorites)
    (hc : ∀ g y, y ∈ childrenOf s g → y ≠ e → y ∈ childrenOf t g) :
    ∀ x, InTree s x → ¬ Desc s e x → InTree t x := by
  intro x hx
  induction hx with
  | root hm =>
    intro hnd
    exact InTree.root (hf _ hm (fun hxe => hnd (hxe ▸ Desc.refl)))
  | child hg hm ih =>
    intro hnd
    have hgnd : ¬ Desc s e _ := fun hd => hnd (Desc.child hd hm)
    exact InTree.child (ih hgnd) (hc _ _ hm (fun hxe => hnd (hxe ▸ Desc.refl)))

theorem addChild_childrenOf (s : Store) (g e : Ref) (cs : List Ref)
    (hcs : (s.heap g).children = some cs) (hne : e ≠ g) (x : Ref) :
    childrenOf (addChild s g e) x = if x = g then cs ++ [e] else childrenOf s x := by
  unfold childrenOf
  rw [addChild_heap_children s g e cs hcs hne x]
  by_cases hxg : x = g <;> simp [hxg]

theorem removeChild_childrenOf (s : Store) (p e : Ref) (cs : List Ref)
    (hcs : (s.heap p).children = some cs) (hmem : e ∈ cs) (x : Ref) :
    childrenOf (removeChild s p e) x
      = if x = p then cs.erase e else childrenOf s x := by
  unfold childrenOf
  rw [removeChild_heap_children s p e cs hcs hmem x]
  by_cases hxp : x = p <;> simp [hxp]

theorem storeAdd_childrenOf (s : Store) (bks : List Ref) (x : Ref) :
    childrenOf (storeAdd s bks) x = childrenOf s x := rfl

/-- After `addChild g e`, anything in the tree was in the tree before or
sits in `e`'s subtree. -/
theorem attach_reach (s : Store) (g e : Ref) (cs : List Ref)
    (hcs : (s.heap g).children = some cs) (hne : e ≠ g) :
    ∀ x, InTree (addChild s g e) x → InTree s x ∨ Desc s e x := by
  intro x hx
  induction hx with
  | root hm =>
    rw [addChild_favorites] at hm
    exact Or.inl (InTree.root hm)
  | child hg hm ih =>
    rename_i g0 i0
    rw [addChild_childrenOf s g e cs hcs hne] at hm
    have hcsg : childrenOf s g = cs := by
      unfold childrenOf
      rw [hcs]
      rfl
    rcases ih with hold | hdesc
    · by_cases hgg : g0 = g
      · rw [if_pos hgg] at hm
        subst hgg
        rcases List.mem_append.mp hm with hm | hm
        · exact Or.inl (InTree.child hold (by rw [hcsg]; exact hm))
        · simp at hm
          subst hm
          exact Or.inr Desc.refl
      · rw [if_neg hgg] at hm
        exact Or.inl (InTree.child hold hm)
    · by_cases hgg : g0 = g
      · rw [if_pos hgg] at hm
        subst hgg
        rcases List.mem_append.mp hm with hm | hm
        · exact Or.inr (Desc.child hdesc (by rw [hcsg]; exact hm))
        · simp at hm
          subst hm
          exact Or.inr Desc.refl
      · rw [if_neg hgg] at hm
        exact Or.inr (Desc.child hdesc hm)

/-- After `store.add(e)`, anything in the tree was in the tree before or
sits in `e`'s subtree. -/
theorem rootAttach_reach (s : Store) (e : Ref) :
    ∀ x, InTree (storeAdd s [e]) x → InTree s x ∨ Desc s e x := by
  intro x hx
  induction hx with
  | root hm =>
    simp only [storeAdd] at hm
    rcases List.mem_append.mp hm with hm | hm
    · exact Or.inl (InTree.root hm)
    · simp at hm
      subst hm
      exact Or.inr Desc.refl
  | child hg hm ih =>
    rw [storeAdd_childrenOf] at hm
    rcases ih with hold | hdesc
    · exact Or.inl (InTree.child hold hm)
    · exact Or.inr (Desc.child hdesc hm)

theorem storeInv_parentOK (s : Store) (hInv : StoreInv s) : ParentOK s :=
  ⟨hInv.root_parent, hInv.child_parent⟩

theorem spliceDelete_subset (l : List Ref) (x : Ref) : spliceDelete l x ⊆ l := by
  unfold spliceDelete
  by_cases hm : x ∈ l
  · rw [if_pos hm]
    exact fun y hy => List.mem_of_mem_erase hy
  · rw [if_neg hm]
    exact List.dropLast_subset _

theorem storeAdd_parentOK (s : Store) (e : Ref) (hInv : StoreInv s)
    (hpar : (s.heap e).parent = none) (hdet : Detached s e) (hsub : SubOK s e) :
    ParentOK (storeAdd s [e]) := by
  constructor
  · intro y hy
    simp only [storeAdd] at hy
    rcases List.mem_append.mp hy with hy | hy
    · exact hInv.root_parent y hy
    · simp at hy
      subst hy
      exact hpar
  · intro g0 hg0 y hy
    rw [storeAdd_childrenOf] at hy
    rcases rootAttach_reach s e g0 hg0 with hold | hdesc
    · exact hInv.child_parent g0 hold y hy
    · exact hsub g0 hdesc y hy

theorem addChild_parentOK (s : Store) (g e : Ref) (hInv : StoreInv s)
    (hg : InTree s g) (hgrp : (s.heap g).isGroup = true)
    (hpar : (s.heap e).parent = none) (hdet : Detached s e) (hsub : SubOK s e) :
    ParentOK (addChild s g e) := by
  obtain ⟨cs, hcs⟩ := Option.isSome_iff_exists.mp hgrp
  have hcsg : childrenOf s g = cs := by
    unfold childrenOf
    rw [hcs]
    rfl
  have hne : e ≠ g := by
    intro hcontra
    subst hcontra
    cases hg with
    | root hm => exact hdet.1 hm
    | child hgt hm => exact hdet.2 _ hgt hm
  constructor
  · intro y hy
    rw [addChild_favorites] at hy
    rw [addChild_heap_parent s g e cs hcs hne y]
    have hyne : y ≠ e := fun hc => hdet.1 (hc ▸ hy)
    rw [if_neg hyne]
    exact hInv.root_parent y hy
  · intro g0 hg0 y hy
    rw [addChild_childrenOf s g e cs hcs hne] at hy
    rw [addChild_heap_parent s g e cs hcs hne y]
    by_cases hgg : g0 = g
    · subst hgg
      rw [if_pos rfl] at hy
      rcases List.mem_append.mp hy with hy | hy
      · have hyne : y ≠ e := fun hc =>
          hdet.2 _ hg (by rw [hcsg]; exact hc ▸ hy)
        rw [if_neg hyne]
        exact hInv.child_parent g0 hg y (by rw [hcsg]; exact hy)
      · simp at hy
        subst hy
        rw [if_pos rfl]
    · rw [if_neg hgg] at hy
      rcases attach_reach s g e cs hcs hne g0 hg0 with hold | hdesc
      · have hyne : y ≠ e := fun hc => hdet.2 g0 hold (hc ▸ hy)
        rw [if_neg hyne]
        exact hInv.child_parent g0 hold y hy
      · by_cases hye : y = e
        · have h1 := hsub g0 hdesc y hy
          rw [hye, hpar] at h1
          cases h1
        · rw [if_neg hye]
          exact hsub g0 hdesc y hy

theorem removeChild_parentOK (s : Store) (p e : Ref) (hInv : StoreInv s)
    (hpar : (s.heap e).parent = some p) :
    ParentOK (removeChild s p e) := by
  cases hc : (s.heap p).children with
  | none =>
    have hid : removeChild s p e = s := by
      unfold removeChild
      rw [hc]
    rw [hid]
    exact storeInv_parentOK s hInv
  | some cs =>
    by_cases hmem : e ∈ cs
    · have hmono : ∀ x, InTree (removeChild s p e) x → InTree s x := by
        refine reach_mono _ _ ?_ ?_
        · intro x hx
          rw [removeChild_favorites] at hx
          exact hx
        · intro g0 y hy
          rw [removeChild_childrenOf s p e cs hc hmem] at hy
          by_cases hgp : g0 = p
          · rw [if_pos hgp] at hy
            subst hgp
            unfold childrenOf
            rw [hc]
            exact List.mem_of_mem_erase hy
          · rw [if_neg hgp] at hy
            exact hy
      constructor
      · intro y hy
        rw [removeChild_favorites] at hy
        rw [removeChild_heap_parent s p e cs hc hmem y]
        have hyne : y ≠ e := by
          intro hcon
          subst hcon
          have hn := hInv.root_parent y hy
          rw [hpar] at hn
          cases hn
        rw [if_neg hyne]
        exact hInv.root_parent y hy
      · intro g0 hg0 y hy
        have hg0s : InTree s g0 := hmono g0 hg0
        rw [removeChild_childrenOf s p e cs hc hmem] at hy
        rw [removeChild_heap_parent s p e cs hc hmem y]
        by_cases hye : y = e
        · subst hye
          by_cases hgp : g0 = p
          · subst hgp
            rw [if_pos rfl] at hy
            have hnd : cs.Nodup := by
              have hn := hInv.child_nodup g0 hg0s
              unfold childrenOf at hn
              rw [hc] at hn
              exact hn
            exact absurd rfl ((List.Nodup.mem_erase_iff hnd).mp hy).1
          · rw [if_neg hgp] at hy
            have h1 := hInv.child_parent g0 hg0s _ hy
            rw [hpar] at h1
            exact absurd (Option.some.inj h1).symm hgp
        · rw [if_neg hye]
          by_cases hgp : g0 = p
          · subst hgp
            rw [if_pos rfl] at hy
            refine hInv.child_parent g0 hg0s y ?_
            unfold childrenOf
            rw [hc]
            exact List.mem_of_mem_erase hy
          · rw [if_neg hgp] at hy
            exact hInv.child_parent g0 hg0s y hy
    · have hid : removeChild s p e = s := by
        refine removeChild_not_mem s p e ?_
        unfold childrenOf
        rw [hc]
        simpa using hmem
      rw [hid]
      exact storeInv_parentOK s hInv

theorem spliceBranch_parentOK (s : Store) (e : Ref) (hInv : StoreInv s) :
    ParentOK { s with favorites := spliceDelete s.favorites e } := by
  constructor
  · intro y hy
    exact hInv.root_parent y (spliceDelete_subset s.favorites e hy)
  · intro g0 hg0 y hy
    have hg0s : InTree s g0 := by
      refine reach_mono _ _ ?_ ?_ g0 hg0
      · intro x hx
        exact spliceDelete_subset s.favorites e hx
      · intro g1 y1 hy1
        exact hy1
    exact hInv.child_parent g0 hg0s y hy

theorem storeDelete1_parentOK (s : Store) (e : Ref) (hInv : StoreInv s) :
    ParentOK (storeDelete1 s e) := by
  cases hp : (s.heap e).parent with
  | none =>
    have hid : storeDelete1 s e = { s with favorites := spliceDelete s.favorites e } := by
      unfold storeDelete1
      rw [hp]
    rw [hid]
    exact spliceBranch_parentOK s e hInv
  | some p =>
    by_cases hgrp : (s.heap p).isGroup = true
    · have hid : storeDelete1 s e = removeChild s p e := by
        unfold storeDelete1
        rw [hp]
        simp [hgrp]
      rw [hid]
      exact removeChild_parentOK s p e hInv hp
    · have hid : storeDelete1 s e = { s with favorites := spliceDelete s.favorites e } := by
        unfold storeDelete1
        rw [hp]
        simp [hgrp]
      rw [hid]
      exact spliceBranch_parentOK s e hInv

/-- The parsed document `[{"label": "A", "resourcePath": "/a", "parent": ...}]`:
one record carrying a retained truthy `parent` key (a stale or hand-edited
value, here modelled as the reference `7`). -/
def junkParentDoc : List JRec := [.mk (some "A") (some "/a") none none (some 7) none]

/-- C2 counterexample: load/restore does NOT preserve parent consistency on
every parsed document.  `Object.assign(new Favorite(), obj)` copies the
record's own `parent` key, and the top-level `this.restore(f)` call passes
no parent argument to override it, so loading a document whose single
top-level record carries a `parent` key leaves a root-level entity whose
`parent` field is not absent — violating the invariant that every
root-level entity carries no parent. -/
theorem restore_junk_parent_breaks_invariant :
    (restoredStore (fun _ => blankObj) junkParentDoc).favorites = [0]
    ∧ ((restoredStore (fun _ => blankObj) junkParentDoc).heap 0).parent = some 7
    ∧ ¬ ParentOK (restoredStore (fun _ => blankObj) junkParentDoc) := by
  have hf : (restoredStore (fun _ => blankObj) junkParentDoc).favorites = [0] := by
    simp [restoredStore, restoreList, restoreRec, junkParentDoc]
  have hp : ((restoredStore (fun _ => blankObj) junkParentDoc).heap 0).parent = some 7 := by
    simp [restoredStore, restoreList, restoreRec, junkParentDoc, hup, wireParent]
  refine ⟨hf, hp, fun hPO => ?_⟩
  have h0 := hPO.1 0 (by rw [hf]; exact List.mem_singleton.mpr rfl)
  rw [hp] at h0
  cases h0

/-- C2 (amended): parent consistency is an invariant of the store's own
mutations: starting from any store satisfying the forest invariant, `add`
of an unattached entity, `addChild` of an unattached entity under a tree
Group, `removeChild` (called, as everywhere in the source, on the entity's
own parent), and `delete` all leave a state in which every tree Group's
children point back to that exact Group and every root-level entity has no
parent; and `restore` re-establishes it for every parsed document whose
top-level records carry no retained `parent` key (nested records' retained
keys are always overridden by the recursive wiring) — but not, per the
counterexample, for arbitrary documents. -/
theorem parent_consistency_amended (s : Store) (hInv : StoreInv s) :
    (∀ e, (s.heap e).parent = none → Detached s e → SubOK s e →
      ParentOK (storeAdd s [e]))
    ∧ (∀ g e, InTree s g → (s.heap g).isGroup = true → (s.heap e).parent = none →
      Detached s e → SubOK s e → ParentOK (addChild s g e))
    ∧ (∀ p e, (s.heap e).parent = some p → ParentOK (removeChild s p e))
    ∧ (∀ e, ParentOK (storeDelete1 s e))
    ∧ (∀ rs, (∀ r ∈ rs, JRec.parent r = none) →
      ParentOK (restoredStore s.heap rs)) :=
  ⟨fun e hp hd hs => storeAdd_parentOK s e hInv hp hd hs,
   fun g e hg hgrp hp hd hs => addChild_parentOK s g e hInv hg hgrp hp hd hs,
   fun p e hp => removeChild_parentOK s p e hInv hp,
   fun e => storeDelete1_parentOK s e hInv,
   fun rs hclean => wired_parentOK _ _
     (restoreList_wired rs none 0 s.heap _ (fun _ => hclean) (fun _ _ _ => rfl))⟩

/-- Concrete store: Group `0` at root containing leaf `1`. -/
def sC2 : Store :=
  ⟨fun i => if i = 0 then groupObj "G" [1] none
    else if i = 1 then leafObj "A" "/a.txt" (some 0) else blankObj, [0]⟩

theorem sC2_inv : StoreInv sC2 := by
  have hL := inTree_subset sC2 [0, 1] (by decide) (by decide)
  refine ⟨by decide, ?_, by decide, ?_⟩
  · intro g hg
    have hm := hL g hg
    rcases List.mem_cons.mp hm with rfl | hm
    · decide
    · rcases List.mem_cons.mp hm with rfl | hm
      · decide
      · simp at hm
  · intro g hg
    have hm := hL g hg
    rcases List.mem_cons.mp hm with rfl | hm
    · decide
    · rcases List.mem_cons.mp hm with rfl | hm
      · decide
      · simp at hm

theorem parent_consistency_amended_witness :
    (∀ e, (sC2.heap e).parent = none → Detached sC2 e → SubOK sC2 e →
      ParentOK (storeAdd sC2 [e]))
    ∧ (∀ g e, InTree sC2 g → (sC2.heap g).isGroup = true → (sC2.heap e).parent = none →
      Detached sC2 e → SubOK sC2 e → ParentOK (addChild sC2 g e))
    ∧ (∀ p e, (sC2.heap e).parent = some p → ParentOK (removeChild sC2 p e))
    ∧ (∀ e, ParentOK (storeDelete1 sC2 e))
    ∧ (∀ rs, (∀ r ∈ rs, JRec.parent r = none) →
      ParentOK (restoredStore sC2.heap rs)) :=
  parent_consistency_amended sC2 sC2_inv

/-- Attach phase of a move: if, after detaching, `e` is nowhere in the tree
(not at root, in no tree Group's children, in no group of its own subtree),
then reattaching it — under a Group of the tree or at root level — makes it
appear exactly once, at the chosen place, and nowhere else. -/
theorem move_attach_aux (s1 : Store) (e : Ref)
    (hf1 : (s1.heap e).parent = none)
    (hf3 : e ∉ s1.favorites)
    (hf4 : ∀ g', InTree s1 g' → e ∉ childrenOf s1 g')
    (hf7 : ∀ g', Desc s1 e g' → e ∉ childrenOf s1 g') :
    (∀ g cs1, (s1.heap g).children = some cs1 → e ≠ g → InTree s1 g →
      (childrenOf (addChild s1 g e) g).count e = 1
      ∧ ((addChild s1 g e).heap e).parent = some g
      ∧ e ∉ (addChild s1 g e).favorites
      ∧ (∀ g', InTree (addChild s1 g e) g' → g' ≠ g →
          e ∉ childrenOf (addChild s1 g e) g')
      ∧ InTree (addChild s1 g e) g)
    ∧ ((storeAdd s1 [e]).favorites.count e = 1
      ∧ ((storeAdd s1 [e]).heap e).parent = none
      ∧ (∀ g', InTree (storeAdd s1 [e]) g' →
          e ∉ childrenOf (storeAdd s1 [e]) g')) := by
  constructor
  · intro g cs1 hcs1 hne hg1
    have hcsg : childrenOf s1 g = cs1 := by
      unfold childrenOf
      rw [hcs1]
      rfl
    refine ⟨?_, ?_, ?_, ?_, ?_⟩
    · rw [addChild_childrenOf s1 g e cs1 hcs1 hne g, if_pos rfl, List.count_append]
      have hzero : cs1.count e = 0 := by
        rw [List.count_eq_zero]
        intro hc
        exact hf4 g hg1 (by rw [hcsg]; exact hc)
      rw [hzero]
      simp
    · rw [addChild_heap_parent s1 g e cs1 hcs1 hne e, if_pos rfl]
    · rw [addChild_favorites]
      exact hf3
    · intro g' hg' hgg
      rw [addChild_childrenOf s1 g e cs1 hcs1 hne g', if_neg hgg]
      rcases attach_reach s1 g e cs1 hcs1 hne g' hg' with h | h
      · exact hf4 g' h
      · exact hf7 g' h
    · refine reach_mono s1 (addChild s1 g e) ?_ ?_ g hg1
      · intro x hx
        rw [addChild_favorites]
        exact hx
      · intro g0 y hy
        rw [addChild_childrenOf s1 g e cs1 hcs1 hne g0]
        by_cases hg0 : g0 = g
        · rw [if_pos hg0]
          subst hg0
          rw [hcsg] at hy
          exact List.mem_append_left _ hy
        · rw [if_neg hg0]
          exact hy
  · refine ⟨?_, hf1, ?_⟩
    · simp only [storeAdd, List.count_append]
      have hzero : s1.favorites.count e = 0 := by
        rw [List.count_eq_zero]
        exact hf3
      rw [hzero]
      simp
    · intro g' hg'
      rw [storeAdd_childrenOf]
      rcases rootAttach_reach s1 e g' hg' with h | h
      · exact hf4 g' h
      · exact hf7 g' h

/-- C6 (amended): moving an attached entity is atomic and preserves single
attachment PROVIDED the chosen target group is neither the entity itself
nor one of its descendants (the target prompt excludes only the current
parent, so such targets are offerable; see the counterexample): after
`moveFavorite(e, newGroup)` the entity appears exactly once in the whole
tree — once in `newGroup`'s children (respectively once in the root
collection when the virtual root group was chosen), in no other tree
Group's children, not at root level, with its parent back-reference set to
the new group (respectively cleared). -/
theorem move_exactly_once (s : Store) (e : Ref) (tgt : Option Ref)
    (hInv : StoreInv s) (hsub : SubOK s e)
    (hatt : ((s.heap e).parent = none ∧ e ∈ s.favorites)
      ∨ (∃ p, (s.heap e).parent = some p ∧ InTree s p ∧ (s.heap p).isGroup = true
          ∧ e ∈ childrenOf s p ∧ ¬ Desc s e p))
    (htgt : ∀ g, tgt = some g →
      InTree s g ∧ (s.heap g).isGroup = true ∧ ¬ Desc s e g) :
    (∀ g, tgt = some g →
      (childrenOf (moveFavorite s e tgt) g).count e = 1
      ∧ ((moveFavorite s e tgt).heap e).parent = some g
      ∧ e ∉ (moveFavorite s e tgt).favorites
      ∧ (∀ g', InTree (moveFavorite s e tgt) g' → g' ≠ g →
          e ∉ childrenOf (moveFavorite s e tgt) g')
      ∧ InTree (moveFavorite s e tgt) g)
    ∧ (tgt = none →
      (moveFavorite s e tgt).favorites.count e = 1
      ∧ ((moveFavorite s e tgt).heap e).parent = none
      ∧ (∀ g', InTree (moveFavorite s e tgt) g' →
          e ∉ childrenOf (moveFavorite s e tgt) g')) := by
  rcases hatt with ⟨hp, hmem⟩ | ⟨p, hp, hpin, hpg, hmemp, hndp⟩
  · -- e is attached at root level
    have hsplice : storeDelete1 s e = { s with favorites := s.favorites.erase e } := by
      unfold storeDelete1
      rw [hp]
      unfold spliceDelete
      rw [if_pos hmem]
    have hf1 : ((Store.mk s.heap (s.favorites.erase e)).heap e).parent = none := hp
    have hf3 : e ∉ (Store.mk s.heap (s.favorites.erase e)).favorites := fun hc =>
      ((List.Nodup.mem_erase_iff hInv.root_nodup).mp hc).1 rfl
    have hmono1 : ∀ x, InTree (Store.mk s.heap (s.favorites.erase e)) x → InTree s x := by
      refine reach_mono _ _ ?_ ?_
      · intro x hx
        exact List.mem_of_mem_erase hx
      · intro g0 y hy
        exact hy
    have hf4 : ∀ g', InTree (Store.mk s.heap (s.favorites.erase e)) g' →
        e ∉ childrenOf (Store.mk s.heap (s.favorites.erase e)) g' := by
      intro g' hg' hc
      have h1 := hInv.child_parent g' (hmono1 g' hg') e hc
      rw [hp] at h1
      cases h1
    have hf7 : ∀ g', Desc (Store.mk s.heap (s.favorites.erase e)) e g' →
        e ∉ childrenOf (Store.mk s.heap (s.favorites.erase e)) g' := by
      intro g' hd hc
      have hds : Desc s e g' :=
        desc_mono (Store.mk s.heap (s.favorites.erase e)) s e (fun _ _ h => h) g' hd
      have h1 := hsub g' hds e hc
      rw [hp] at h1
      cases h1
    have hsurv : ∀ x, InTree s x → ¬ Desc s e x →
        InTree (Store.mk s.heap (s.favorites.erase e)) x := by
      refine reach_minus s _ e ?_ ?_
      · intro x hx hne
        exact (List.mem_erase_of_ne hne).mpr hx
      · intro g0 y hy hne
        exact hy
    have haux := move_attach_aux (Store.mk s.heap (s.favorites.erase e)) e hf1 hf3 hf4 hf7
    cases tgt with
    | some g =>
      obtain ⟨hgin, hggrp, hgnd⟩ := htgt g rfl
      have hne : e ≠ g := fun hc => hgnd (hc ▸ Desc.refl)
      obtain ⟨csg, hcsg⟩ := Option.isSome_iff_exists.mp hggrp
      have hg1 : InTree (Store.mk s.heap (s.favorites.erase e)) g := hsurv g hgin hgnd
      have hmf : moveFavorite s e (some g)
          = addChild (Store.mk s.heap (s.favorites.erase e)) g e := by
        unfold moveFavorite
        rw [hp, hsplice]
      constructor
      · intro g0 hg0
        have hgg : g0 = g := (Option.some.inj hg0).symm
        subst hgg
        rw [hmf]
        exact haux.1 g0 csg hcsg hne hg1
      · intro hc
        cases hc
    | none =>
      have hmf : moveFavorite s e none
          = storeAdd (Store.mk s.heap (s.favorites.erase e)) [e] := by
        unfold moveFavorite
        rw [hp, hsplice]
      constructor
      · intro g0 hg0
        cases hg0
      · intro _
        rw [hmf]
        exact haux.2
  · -- e is attached as a child of the tree Group p
    have hpgrp := hpg
    obtain ⟨cs, hc⟩ := Option.isSome_iff_exists.mp hpgrp
    have hmemcs : e ∈ cs := by
      unfold childrenOf at hmemp
      rw [hc] at hmemp
      exact hmemp
    have hcsp : childrenOf s p = cs := by
      unfold childrenOf
      rw [hc]
      rfl
    have hchar_c := removeChild_childrenOf s p e cs hc hmemcs
    have hchar_p := removeChild_heap_parent s p e cs hc hmemcs
    have hf1 : ((removeChild s p e).heap e).parent = none := by
      rw [hchar_p e, if_pos rfl]
    have hf3 : e ∉ (removeChild s p e).favorites := by
      rw [removeChild_favorites]
      intro hcon
      have h1 := hInv.root_parent e hcon
      rw [hp] at h1
      cases h1
    have hcsub : ∀ g0 y, y ∈ childrenOf (removeChild s p e) g0 → y ∈ childrenOf s g0 := by
      intro g0 y hy
      rw [hchar_c g0] at hy
      by_cases hgp : g0 = p
      · rw [if_pos hgp] at hy
        subst hgp
        rw [hcsp]
        exact List.mem_of_mem_erase hy
      · rw [if_neg hgp] at hy
        exact hy
    have hmono1 : ∀ x, InTree (removeChild s p e) x → InTree s x := by
      refine reach_mono _ _ ?_ hcsub
      intro x hx
      rw [removeChild_favorites] at hx
      exact hx
    have hndcs : cs.Nodup := by
      have h1 := hInv.child_nodup p hpin
      rw [hcsp] at h1
      exact h1
    have hf4 : ∀ g', InTree (removeChild s p e) g' →
        e ∉ childrenOf (removeChild s p e) g' := by
      intro g' hg' hcon
      have hg's := hmono1 g' hg'
      rw [hchar_c g'] at hcon
      by_cases hgp : g' = p
      · rw [if_pos hgp] at hcon
        exact ((List.Nodup.mem_erase_iff hndcs).mp hcon).1 rfl
      · rw [if_neg hgp] at hcon
        have h1 := hInv.child_parent g' hg's e hcon
        rw [hp] at h1
        exact hgp (Option.some.inj h1).symm
    have hf7 : ∀ g', Desc (removeChild s p e) e g' →
        e ∉ childrenOf (removeChild s p e) g' := by
      intro g' hd hcon
      have hds : Desc s e g' := desc_mono _ s e hcsub g' hd
      rw [hchar_c g'] at hcon
      by_cases hgp : g' = p
      · exact hndp (hgp ▸ hds)
      · rw [if_neg hgp] at hcon
        have h1 := hsub g' hds e hcon
        rw [hp] at h1
        exact hgp (Option.some.inj h1).symm
    have hsurv : ∀ x, InTree s x → ¬ Desc s e x → InTree (removeChild s p e) x := by
      refine reach_minus s _ e ?_ ?_
      · intro x hx hne
        rw [removeChild_favorites]
        exact hx
      · intro g0 y hy hne
        rw [hchar_c g0]
        by_cases hgp : g0 = p
        · rw [if_pos hgp]
          subst hgp
          rw [hcsp] at hy
          exact (List.mem_erase_of_ne hne).mpr hy
        · rw [if_neg hgp]
          exact hy
    have haux := move_attach_aux (removeChild s p e) e hf1 hf3 hf4 hf7
    cases tgt with
    | some g =>
      obtain ⟨hgin, hggrp, hgnd⟩ := htgt g rfl
      have hne : e ≠ g := fun hcon => hgnd (hcon ▸ Desc.refl)
      have hex : ∃ cs1, ((removeChild s p e).heap g).children = some cs1 := by
        rw [removeChild_heap_children s p e cs hc hmemcs g]
        by_cases hgp : g = p
        · rw [if_pos hgp]
          exact ⟨cs.erase e, rfl⟩
        · rw [if_neg hgp]
          exact Option.isSome_iff_exists.mp hggrp
      obtain ⟨cs1, hcs1⟩ := hex
      have hg1 : InTree (removeChild s p e) g := hsurv g hgin hgnd
      have hmf : moveFavorite s e (some g) = addChild (removeChild s p e) g e := by
        unfold moveFavorite
        rw [hp]
      constructor
      · intro g0 hg0
        have hgg : g0 = g := (Option.some.inj hg0).symm
        subst hgg
        rw [hmf]
        exact haux.1 g0 cs1 hcs1 hne hg1
      · intro hcon
        cases hcon
    | none =>
      have hmf : moveFavorite s e none = storeAdd (removeChild s p e) [e] := by
        unfold moveFavorite
        rw [hp]
      constructor
      · intro g0 hg0
        cases hg0
      · intro _
        rw [hmf]
        exact haux.2

/-- Store: Group `0` at root level, containing Group `1`. -/
def sC6x : Store :=
  ⟨fun i => if i = 0 then groupObj "G" [1] none
    else if i = 1 then groupObj "H" [] (some 0) else blankObj, [0]⟩

/-- C6 counterexample: move is NOT atomic for every offerable target — the
target prompt excludes only the entity's current parent, so a group can be
moved under its own descendant.  Moving the root-level group `0` under its
child group `1` leaves the root collection empty: `0` is attached under
`1` (an orphan cycle) and appears ZERO times in the whole tree, not exactly
once under the new group. -/
theorem move_into_descendant_loses_entity :
    ((sC6x.heap 0).parent = none ∧ 0 ∈ sC6x.favorites
      ∧ InTree sC6x 1 ∧ (sC6x.heap 1).isGroup = true ∧ (1 : Ref) ≠ 0)
    ∧ (moveFavorite sC6x 0 (some 1)).favorites = []
    ∧ 0 ∈ childrenOf (moveFavorite sC6x 0 (some 1)) 1
    ∧ ¬ InTree (moveFavorite sC6x 0 (some 1)) 0 := by
  refine ⟨⟨by decide, by decide,
    @InTree.child sC6x 0 1 (InTree.root (by decide)) (by decide), by decide, by decide⟩,
    by decide, by decide, ?_⟩
  intro hx
  have h0 := inTree_subset (moveFavorite sC6x 0 (some 1)) [] (by decide) (by decide) 0 hx
  simp at h0

/-- Witness store: root collection `[0, 2]`, Group `0` contains leaf `1`,
Group `2` is empty. -/
def sC6w : Store :=
  ⟨fun i => if i = 0 then groupObj "G" [1] none
    else if i = 1 then leafObj "A" "/a.txt" (some 0)
    else if i = 2 then groupObj "H" [] none else blankObj, [0, 2]⟩

theorem sC6w_inv : StoreInv sC6w := by
  have hL := inTree_subset sC6w [0, 1, 2] (by decide) (by decide)
  refine ⟨by decide, ?_, by decide, ?_⟩
  · intro g hg
    have hm := hL g hg
    rcases List.mem_cons.mp hm with rfl | hm
    · decide
    · rcases List.mem_cons.mp hm with rfl | hm
      · decide
      · rcases List.mem_cons.mp hm with rfl | hm
        · decide
        · simp at hm
  · intro g hg
    have hm := hL g hg
    rcases List.mem_cons.mp hm with rfl | hm
    · decide
    · rcases List.mem_cons.mp hm with rfl | hm
      · decide
      · rcases List.mem_cons.mp hm with rfl | hm
        · decide
        · simp at hm

theorem sC6w_ndesc : ∀ x, Desc sC6w 1 x → x = 1 := by
  intro x hx
  have h1 := desc_subset sC6w 1 [1] (by decide) (by decide) x hx
  simpa using h1

theorem move_exactly_once_witness :
    (∀ g, (some 2 : Option Ref) = some g →
      (childrenOf (moveFavorite sC6w 1 (some 2)) g).count 1 = 1
      ∧ ((moveFavorite sC6w 1 (some 2)).heap 1).parent = some g
      ∧ 1 ∉ (moveFavorite sC6w 1 (some 2)).favorites
      ∧ (∀ g', InTree (moveFavorite sC6w 1 (some 2)) g' → g' ≠ g →
          1 ∉ childrenOf (moveFavorite sC6w 1 (some 2)) g')
      ∧ InTree (moveFavorite sC6w 1 (some 2)) g)
    ∧ ((some 2 : Option Ref) = none →
      (moveFavorite sC6w 1 (some 2)).favorites.count 1 = 1
      ∧ ((moveFavorite sC6w 1 (some 2)).heap 1).parent = none
      ∧ (∀ g', InTree (moveFavorite sC6w 1 (some 2)) g' →
          1 ∉ childrenOf (moveFavorite sC6w 1 (some 2)) g')) :=
  move_exactly_once sC6w 1 (some 2) sC6w_inv
    (by
      intro x hx y hy
      have hx1 := sC6w_ndesc x hx
      subst hx1
      rw [(by decide : childrenOf sC6w 1 = [])] at hy
      cases hy)
    (Or.inr ⟨0, by decide, InTree.root (by decide), by decide, by decide,
      fun hd => absurd (sC6w_ndesc 0 hd) (by decide)⟩)
    (by
      intro g hg
      have hgg : g = 2 := (Option.some.inj hg).symm
      subst hgg
      exact ⟨InTree.root (by decide), by decide,
        fun hd => absurd (sC6w_ndesc 2 hd) (by decide)⟩)
